import Mathlib

/-!
Shallow embedding of the LifeDrawingGallery image-collation pipeline
(the "Image Collate V3.2" variant: feature records, cross-run duplicate
detection against a CSV-backed ledger, deterministic batch grouping,
grid compositing, and run summaries).

External collaborators (PIL decode/resize, perceptual hashing, numpy
feature math, DDS export, the filesystem) are treated as opaque: an
`Img` carries the values those collaborators would produce for one file,
plus an `ok` flag recording whether decode/resize/feature extraction
succeeds for it.  Directory listings are modelled as lists.  Real-valued
features (whiteness, blackness, dominant colour) are modelled as exact
integers at a fixed scale: the comparator only ever compares features,
and scaling every feature by one fixed denominator is an order
embedding of the finite-precision values the collaborators produce.
-/

namespace LifeDrawing

/-- One discovered image file together with the values the external
collaborators (PIL + imagehash + numpy) produce for it: `ok` is whether
`Image.open`/`resize`/feature extraction succeeds, `hash` the perceptual
hash (an opaque comparable value), `domR`/`domG`/`domB` the dominant
(average) colour, `white`/`black` the whiteness/blackness pixel
fractions. -/
structure Img where
  fname : String
  ok : Bool
  hash : Nat
  domR : ℤ
  domG : ℤ
  domB : ℤ
  white : ℤ
  black : ℤ
deriving DecidableEq

/-- One row of the ledger CSV: `(Category, Subcategory, Batch Number,
Perceptual Hash, Image Filename)`, as written by `write_log_to_csv`. -/
structure Entry where
  cat : String
  sub : String
  bn : Nat
  hash : Nat
  fname : String
deriving DecidableEq

/-- A key of the `processed_images` dict.  The source puts two kinds of
keys into this one dict: `load_processed_images` inserts the raw CSV
string `row[3]` (the fourth column of the ledger, written earlier as
`str(perceptual_hash)`), while the in-run reservation at line 1164
inserts the live `imagehash.ImageHash` object itself.  Python dict
membership requires hash-and-equality agreement, and an `ImageHash`
object never hashes or compares equal to its own hex string, so the
membership probe `perceptual_hash in processed_images` (line 1154) can
only ever match a `live` key, never a `csv` one.  `csv h` stands for
the string printed from fingerprint value `h` (serialization is
injective, so the printed value identifies the string); `live h` stands
for a live object with fingerprint value `h` (two live objects with
equal fingerprints hash and compare equal, so value equality is the
right model for live-vs-live lookups). -/
inductive HKey where
  | csv (h : Nat)
  | live (h : Nat)
deriving DecidableEq

/-- ASCII lower-casing of one character, the effect of `str.lower` on
the character sets filenames use. -/
def lower_char (c : Char) : Char :=
  if 'A' ≤ c ∧ c ≤ 'Z' then Char.ofNat (c.toNat + 32) else c

/-- `s.lower()` over the underlying character list. -/
def lower_str (s : String) : String :=
  ⟨s.data.map lower_char⟩

/-- `s.endswith(t)` over the underlying character lists. -/
def ends_with (s t : String) : Bool :=
  t.data.isSuffixOf s.data

/-- Recognized image extensions, from the `available_images` filter:
`f.lower().endswith((".png", ".jpg", ".jpeg"))`. -/
def is_image_file (s : String) : Bool :=
  let t := lower_str s
  ends_with t ".png" || ends_with t ".jpg" || ends_with t ".jpeg"

/-- `load_processed_images`: replay the ledger rows into the
fingerprint → batch-number index (a later row for the same hash wins,
as with a Python dict).  The keys are the raw CSV strings `row[3]`
(`HKey.csv`), never live imagehash objects — the source performs no
parsing of the stored string back into an `ImageHash`. -/
def load_processed_images (ledger : List Entry) : List (HKey × Nat) :=
  ledger.foldl (fun m e => (HKey.csv e.hash, e.bn) :: m) []

/-- Squared L2 distance of a dominant colour from the mid-gray point
(128,128,128).  The source compares `np.linalg.norm(c - [128,128,128])`
values; comparing squared distances is order-equivalent since both
norms are nonnegative, and it keeps the key exact. -/
def dist2_from_gray (x : Img) : ℤ :=
  (x.domR - 128) ^ 2 + (x.domG - 128) ^ 2 + (x.domB - 128) ^ 2

/-- The sort key of `group_images_by_blackness_whiteness_and_color`
(V3.2): `(-blackness, whiteness, distance-from-gray)`, compared
lexicographically ascending, i.e. blackness descending, then whiteness
ascending, then gray-distance ascending. -/
def sort_key (x : Img) : ℤ × ℤ × ℤ :=
  (-x.black, x.white, dist2_from_gray x)

/-- The comparator `images.sort(key=lambda x: (-x[3], x[2], norm(x[1]-gray)))`
realizes: `a` may come before `b` iff `a`'s key is lexicographically ≤
`b`'s key. -/
def key_rel (a b : Img) : Prop :=
  (sort_key a).1 < (sort_key b).1 ∨
    ((sort_key a).1 = (sort_key b).1 ∧
      ((sort_key a).2.1 < (sort_key b).2.1 ∨
        ((sort_key a).2.1 = (sort_key b).2.1 ∧ (sort_key a).2.2 ≤ (sort_key b).2.2)))

instance : DecidableRel key_rel := fun _ _ =>
  inferInstanceAs (Decidable (_ ∨ _))

/-- `group_images_by_blackness_whiteness_and_color` (V3.2): Python
`list.sort(key=...)` is a stable ascending sort by the key, which the
stable `insertionSort` by the same total preorder realizes (a stable
sort's output is uniquely determined by the comparator). -/
def group_images_by_blackness_whiteness_and_color (images : List Img) : List Img :=
  images.insertionSort key_rel

/-- The mutable per-subcategory bookkeeping shared by the two nested
`while` loops of `process_category`: the `checked`/`duplicates`
counters, the category's duplicate-filename list, and the shared
`processed_images` index (fingerprint → batch number). -/
structure SubSt where
  checked : Nat
  dups : Nat
  dup_files : List String
  pidx : List (HKey × Nat)
deriving DecidableEq

/-- Result of the inner `while len(images) < cap and available_images`
loop: the files still unconsumed, the bookkeeping state, the candidate
pool, and the `batch_log` rows collected for the accepted images. -/
structure FillRes where
  avail : List Img
  st : SubSt
  pool : List Img
  blog : List Entry
deriving DecidableEq

/-- The inner extraction loop (V3.2 lines 1140–1167): pop filenames from
the front of `available_images` until the pool reaches the grid capacity
or the list is exhausted; count every popped file as checked; a failed
decode contributes nothing else; a fingerprint already in the index is
counted and listed as a duplicate; otherwise the record joins the pool,
a ledger row joins `batch_log`, and the fingerprint is reserved in the
index under the current batch number. -/
def fill_pool (cap bn : Nat) (cat sub : String) :
    List Img → SubSt → List Img → List Entry → FillRes
  | [], st, pool, blog => ⟨[], st, pool, blog⟩
  | f :: rest, st, pool, blog =>
    if cap ≤ pool.length then ⟨f :: rest, st, pool, blog⟩
    else if f.ok = false then
      fill_pool cap bn cat sub rest { st with checked := st.checked + 1 } pool blog
    else if (st.pidx.lookup (HKey.live f.hash)).isSome then
      fill_pool cap bn cat sub rest
        { st with checked := st.checked + 1, dups := st.dups + 1,
                  dup_files := st.dup_files ++ [f.fname] }
        pool blog
    else
      fill_pool cap bn cat sub rest
        { st with checked := st.checked + 1, pidx := (HKey.live f.hash, bn) :: st.pidx }
        (pool ++ [f]) (blog ++ [⟨cat, sub, bn, f.hash, f.fname⟩])

/-- One rendered batch as `process_category` records it: the batch
number, the images in grouper output order as they are pasted, and the
`batch_log` rows collected for them (in acceptance order). -/
structure SavedBatch where
  bn : Nat
  imgs : List Img
  entries : List Entry
deriving DecidableEq

/-- Filesystem side effects of the run, in order: saving one stitched
grid (`stitched_image.save`, identified by its deterministic name parts)
and appending rows to the ledger CSV (`write_log_to_csv`). The DDS
export is an external best-effort collaborator and not tracked. -/
inductive Ev where
  | save (cat sub : String) (bn : Nat)
  | appendLedger (entries : List Entry)
deriving DecidableEq

/-- Accumulators of the outer `while available_images` loop: the next
batch number, the per-subcategory processed/stitched counters, the
batches rendered so far, and the run-global `log_entries` list and
side-effect trace. -/
structure SubAcc where
  bn : Nat
  processed : Nat
  stitched : Nat
  saved : List SavedBatch
  log : List Entry
  events : List Ev
deriving DecidableEq

/-- Result of one subcategory's outer loop. -/
structure SubResult where
  final_avail : List Img
  st : SubSt
  acc : SubAcc
deriving DecidableEq

/-- The body of the outer `while available_images` loop of
`process_category` (V3.2 lines 1135–1212), recursing on a fuel bound:
refill the candidate pool; stop when it comes back empty; sort it with
the grouper; skip rendering when it is short of the grid capacity;
otherwise paste the first `rows*cols` images, save the grid, extend
`log_entries` with the batch's rows, bump the counters, and only then
increment the batch number.  Each loop iteration strictly consumes
`available_images`, so fuel `avail.length` (as `sub_loop` supplies) is
never exhausted; see `sub_go_fuel`. -/
def sub_go (rows cols : Nat) (cat sub : String) :
    Nat → List Img → SubSt → SubAcc → SubResult
  | 0, avail, st, acc => ⟨avail, st, acc⟩
  | fuel + 1, avail, st, acc =>
    match avail with
    | [] => ⟨[], st, acc⟩
    | f :: rest =>
      let cap := rows * cols
      let r := fill_pool cap acc.bn cat sub (f :: rest) st [] []
      if r.pool = [] then ⟨r.avail, r.st, acc⟩
      else
        let sorted := group_images_by_blackness_whiteness_and_color r.pool
        if sorted.length < cap then
          sub_go rows cols cat sub fuel r.avail r.st acc
        else
          sub_go rows cols cat sub fuel r.avail r.st
            { bn := acc.bn + 1,
              processed := acc.processed + sorted.length,
              stitched := acc.stitched + 1,
              saved := acc.saved ++ [⟨acc.bn, sorted.take cap, r.blog⟩],
              log := acc.log ++ r.blog,
              events := acc.events ++ [Ev.save cat sub acc.bn] }

/-- The outer `while available_images` loop. -/
def sub_loop (rows cols : Nat) (cat sub : String)
    (avail : List Img) (st : SubSt) (acc : SubAcc) : SubResult :=
  sub_go rows cols cat sub avail.length avail st acc

/-- Processing of one subcategory inside `process_category`: list the
recognized image files, run the outer loop starting from batch number 1
with fresh per-subcategory counters, and build the subcategory summary
exactly as the source does — in particular its `"Images in folder"`
field is `len(available_images)` at summary time. -/
structure SubRun where
  sub : String
  listed : List Img
  res : SubResult
  sum_images_in_folder : Nat
  sum_checked : Nat
  sum_dups : Nat
  sum_processed : Nat
  sum_stitched : Nat
deriving DecidableEq

/-- One subcategory's processing (discovery filter, loop, summary). -/
def process_subcategory (rows cols : Nat) (cat sub : String)
    (files : List Img) (pidx : List (HKey × Nat))
    (log : List Entry) (events : List Ev) : SubRun :=
  let listed := files.filter (fun f => is_image_file f.fname)
  let res := sub_loop rows cols cat sub listed
    { checked := 0, dups := 0, dup_files := [], pidx := pidx }
    { bn := 1, processed := 0, stitched := 0, saved := [], log := log, events := events }
  { sub := sub,
    listed := listed,
    res := res,
    sum_images_in_folder := res.final_avail.length,
    sum_checked := res.st.checked,
    sum_dups := res.st.dups,
    sum_processed := res.acc.processed,
    sum_stitched := res.acc.stitched }

/-- One category directory: its name, its subdirectories (name and the
image files directly inside each), and the image files directly in the
category root. -/
structure CatDir where
  name : String
  subdirs : List (String × List Img)
  rootFiles : List Img

/-- The subcategory names `process_category` iterates: the listed
subdirectories, with `'main'` appended when no subdirectory of that name
exists. -/
def subcategory_names (c : CatDir) : List String :=
  let names := c.subdirs.map (·.1)
  if names.contains "main" then names else names ++ ["main"]

/-- The directory whose files a subcategory reads: the category root
for `'main'` (the `subcategory_path = category_path` override), the
named subdirectory otherwise. -/
def dir_files (c : CatDir) (sub : String) : List Img :=
  if sub = "main" then c.rootFiles else (c.subdirs.lookup sub).getD []

/-- Category-level counters of `category_summaries[category]`. -/
structure CatRes where
  name : String
  images_in_folder : Nat
  checked : Nat
  dups : Nat
  processed : Nat
  stitched : Nat
  dup_files : List String
  subRuns : List SubRun

/-- The `for subcategory in subcategories` loop of `process_category`:
skip a subcategory whose listing holds no recognized image, otherwise
run it and fold its counters into the category summary, threading the
shared duplicate index, `log_entries` and the side-effect trace. -/
def cat_loop (rows cols : Nat) (c : CatDir) :
    List String → CatRes → List (HKey × Nat) → List Entry → List Ev →
      CatRes × List (HKey × Nat) × List Entry × List Ev
  | [], cr, pidx, log, events => (cr, pidx, log, events)
  | name :: rest, cr, pidx, log, events =>
    let listed := (dir_files c name).filter (fun f => is_image_file f.fname)
    if listed.isEmpty then
      cat_loop rows cols c rest cr pidx log events
    else
      let sr := process_subcategory rows cols c.name name (dir_files c name) pidx log events
      cat_loop rows cols c rest
        { cr with
            images_in_folder := cr.images_in_folder + listed.length,
            checked := cr.checked + sr.sum_checked,
            dups := cr.dups + sr.sum_dups,
            processed := cr.processed + sr.sum_processed,
            stitched := cr.stitched + sr.sum_stitched,
            dup_files := cr.dup_files ++ sr.res.st.dup_files,
            subRuns := cr.subRuns ++ [sr] }
        sr.res.st.pidx sr.res.acc.log sr.res.acc.events

/-- `process_category` (V3.2 lines 1092–1228) for one existing category
directory. -/
def process_category (rows cols : Nat) (c : CatDir)
    (pidx : List (HKey × Nat)) (log : List Entry) (events : List Ev) :
    CatRes × List (HKey × Nat) × List Entry × List Ev :=
  cat_loop rows cols c (subcategory_names c)
    { name := c.name, images_in_folder := 0, checked := 0, dups := 0,
      processed := 0, stitched := 0, dup_files := [], subRuns := [] }
    pidx log events

/-- The whole run's outcome. -/
structure RunResult where
  cats : List CatRes
  pidx : List (HKey × Nat)
  log : List Entry
  events : List Ev

/-- The `for category in categories` loop of `stitch_images`. -/
def run_loop (rows cols : Nat) :
    List CatDir → List CatRes → List (HKey × Nat) → List Entry → List Ev →
      List CatRes × List (HKey × Nat) × List Entry × List Ev
  | [], crs, pidx, log, events => (crs, pidx, log, events)
  | c :: rest, crs, pidx, log, events =>
    let r := process_category rows cols c pidx log events
    run_loop rows cols rest (crs ++ [r.1]) r.2.1 r.2.2.1 r.2.2.2

/-- `stitch_images` (V3.2 lines 1230–1292): load the ledger index,
process every category, then durably append the accumulated
`log_entries` to the ledger CSV — once, at the end of the run. -/
def stitch_images (rows cols : Nat) (cats : List CatDir) (ledger : List Entry) :
    RunResult :=
  let r := run_loop rows cols cats [] (load_processed_images ledger) [] []
  { cats := r.1, pidx := r.2.1, log := r.2.2.1,
    events := r.2.2.2 ++ [Ev.appendLedger r.2.2.1] }

/-- The grid compositing of one batch (V3.2 lines 1184–1192): a canvas
of size `(cols*width, rows*height)`, and for each index `j` of the first
`rows*cols` images, `row, col = divmod(j, cols)` and a paste at pixel
offset `(col*width, row*height)`. -/
def stitch_batch (rows cols w h : Nat) (imgs : List Img) :
    (Nat × Nat) × List (Img × Nat × Nat) :=
  ((cols * w, rows * h),
   (imgs.take (rows * cols)).enum.map (fun p => (p.2, (p.1 % cols) * w, (p.1 / cols) * h)))

/-! ### Association-list index helpers -/

theorem lookup_append_none {k : HKey} :
    ∀ (l m : List (HKey × Nat)), ((l ++ m).lookup k) = none → m.lookup k = none
  | [], _, h => h
  | (a, b) :: l, m, h => by
    rw [List.cons_append, List.lookup_cons] at h
    by_cases hk : k == a
    · simp [hk] at h
    · exact lookup_append_none l m (by simpa [hk] using h)

theorem lookup_append_isSome {k : HKey} {m : List (HKey × Nat)}
    (h : (m.lookup k).isSome) : ∀ (l : List (HKey × Nat)), ((l ++ m).lookup k).isSome
  | [] => h
  | (a, b) :: l => by
    rw [List.cons_append, List.lookup_cons]
    by_cases hk : k == a
    · simp [hk]
    · simpa [hk] using lookup_append_isSome h l

/-! ### Invariants of the inner extraction loop -/

section FillLemmas

variable (cap bn : Nat) (cat sub : String)

/-- Each iteration pops one file and appends at most one image, so
leftover files plus pool growth never exceed the input. -/
theorem fill_pool_length :
    ∀ (avail : List Img) (st : SubSt) (pool : List Img) (blog : List Entry),
      (fill_pool cap bn cat sub avail st pool blog).avail.length +
        (fill_pool cap bn cat sub avail st pool blog).pool.length ≤
      avail.length + pool.length := by
  intro avail st pool blog
  induction avail, st, pool, blog using fill_pool.induct cap bn cat sub with
  | case1 st pool blog => simp [fill_pool]
  | case2 f rest st pool blog hcap => simp [fill_pool, if_pos hcap]
  | case3 f rest st pool blog hcap hok ih =>
    simp only [fill_pool, if_neg hcap, if_pos hok]
    exact le_trans ih (by simp)
  | case4 f rest st pool blog hcap hok hdup ih =>
    simp only [fill_pool, if_neg hcap, if_neg (by simpa using hok : ¬f.ok = false), if_pos hdup]
    exact le_trans ih (by simp)
  | case5 f rest st pool blog hcap hok hdup ih =>
    simp only [fill_pool, if_neg hcap, if_neg (by simpa using hok : ¬f.ok = false), if_neg hdup]
    refine le_trans ih ?_
    simp only [List.length_append, List.length_cons, List.length_nil]
    omega

/-- Leftover files are files of the input. -/
theorem fill_pool_avail_mem :
    ∀ (avail : List Img) (st : SubSt) (pool : List Img) (blog : List Entry),
      ∀ g ∈ (fill_pool cap bn cat sub avail st pool blog).avail, g ∈ avail := by
  intro avail st pool blog
  induction avail, st, pool, blog using fill_pool.induct cap bn cat sub with
  | case1 st pool blog => simp [fill_pool]
  | case2 f rest st pool blog hcap => rw [fill_pool, if_pos hcap]; exact fun g hg => hg
  | case3 f rest st pool blog hcap hok ih =>
    simp only [fill_pool, if_neg hcap, if_pos hok]
    exact fun g hg => List.mem_cons_of_mem f (ih g hg)
  | case4 f rest st pool blog hcap hok hdup ih =>
    simp only [fill_pool, if_neg hcap, if_neg (by simpa using hok : ¬f.ok = false), if_pos hdup]
    exact fun g hg => List.mem_cons_of_mem f (ih g hg)
  | case5 f rest st pool blog hcap hok hdup ih =>
    simp only [fill_pool, if_neg hcap, if_neg (by simpa using hok : ¬f.ok = false), if_neg hdup]
    exact fun g hg => List.mem_cons_of_mem f (ih g hg)

/-- The duplicate index only ever grows (new reservations are consed on
the front). -/
theorem fill_pool_pidx_ext :
    ∀ (avail : List Img) (st : SubSt) (pool : List Img) (blog : List Entry),
      ∃ l, (fill_pool cap bn cat sub avail st pool blog).st.pidx = l ++ st.pidx := by
  intro avail st pool blog
  induction avail, st, pool, blog using fill_pool.induct cap bn cat sub with
  | case1 st pool blog => exact ⟨[], by simp [fill_pool]⟩
  | case2 f rest st pool blog hcap => exact ⟨[], by rw [fill_pool, if_pos hcap]; simp⟩
  | case3 f rest st pool blog hcap hok ih =>
    simp only [fill_pool, if_neg hcap, if_pos hok]; exact ih
  | case4 f rest st pool blog hcap hok hdup ih =>
    simp only [fill_pool, if_neg hcap, if_neg (by simpa using hok : ¬f.ok = false), if_pos hdup]; exact ih
  | case5 f rest st pool blog hcap hok hdup ih =>
    simp only [fill_pool, if_neg hcap, if_neg (by simpa using hok : ¬f.ok = false), if_neg hdup]
    obtain ⟨l, hl⟩ := ih
    exact ⟨l ++ [(HKey.live f.hash, bn)], by simpa using hl⟩

/-- `checked` counts exactly the files popped off `available_images`. -/
theorem fill_pool_checked :
    ∀ (avail : List Img) (st : SubSt) (pool : List Img) (blog : List Entry),
      (fill_pool cap bn cat sub avail st pool blog).st.checked +
        (fill_pool cap bn cat sub avail st pool blog).avail.length =
      st.checked + avail.length := by
  intro avail st pool blog
  induction avail, st, pool, blog using fill_pool.induct cap bn cat sub with
  | case1 st pool blog => simp [fill_pool]
  | case2 f rest st pool blog hcap => rw [fill_pool, if_pos hcap]
  | case3 f rest st pool blog hcap hok ih =>
    simp only [fill_pool, if_neg hcap, if_pos hok]
    simp only [List.length_append, List.length_cons, List.length_nil] at ih ⊢
    omega
  | case4 f rest st pool blog hcap hok hdup ih =>
    simp only [fill_pool, if_neg hcap, if_neg (by simpa using hok : ¬f.ok = false), if_pos hdup]
    simp only [List.length_append, List.length_cons, List.length_nil] at ih ⊢
    omega
  | case5 f rest st pool blog hcap hok hdup ih =>
    simp only [fill_pool, if_neg hcap, if_neg (by simpa using hok : ¬f.ok = false), if_neg hdup]
    simp only [List.length_append, List.length_cons, List.length_nil] at ih ⊢
    omega

/-- The duplicate counter and the duplicate-filename list move in
lockstep. -/
theorem fill_pool_dups :
    ∀ (avail : List Img) (st : SubSt) (pool : List Img) (blog : List Entry),
      (fill_pool cap bn cat sub avail st pool blog).st.dups +
        st.dup_files.length =
      st.dups + (fill_pool cap bn cat sub avail st pool blog).st.dup_files.length := by
  intro avail st pool blog
  induction avail, st, pool, blog using fill_pool.induct cap bn cat sub with
  | case1 st pool blog => simp [fill_pool]
  | case2 f rest st pool blog hcap => rw [fill_pool, if_pos hcap]
  | case3 f rest st pool blog hcap hok ih =>
    simp only [fill_pool, if_neg hcap, if_pos hok]
    exact ih
  | case4 f rest st pool blog hcap hok hdup ih =>
    simp only [fill_pool, if_neg hcap, if_neg (by simpa using hok : ¬f.ok = false), if_pos hdup]
    simp only [List.length_append, List.length_cons, List.length_nil] at ih ⊢
    omega
  | case5 f rest st pool blog hcap hok hdup ih =>
    simp only [fill_pool, if_neg hcap, if_neg (by simpa using hok : ¬f.ok = false), if_neg hdup]
    exact ih

/-- The duplicate-filename list only grows by appending. -/
theorem fill_pool_dupf_ext :
    ∀ (avail : List Img) (st : SubSt) (pool : List Img) (blog : List Entry),
      ∃ ext, (fill_pool cap bn cat sub avail st pool blog).st.dup_files =
        st.dup_files ++ ext := by
  intro avail st pool blog
  induction avail, st, pool, blog using fill_pool.induct cap bn cat sub with
  | case1 st pool blog => exact ⟨[], by simp [fill_pool]⟩
  | case2 f rest st pool blog hcap => exact ⟨[], by rw [fill_pool, if_pos hcap]; simp⟩
  | case3 f rest st pool blog hcap hok ih =>
    simp only [fill_pool, if_neg hcap, if_pos hok]; exact ih
  | case4 f rest st pool blog hcap hok hdup ih =>
    simp only [fill_pool, if_neg hcap, if_neg (by simpa using hok : ¬f.ok = false), if_pos hdup]
    obtain ⟨ext, hext⟩ := ih
    exact ⟨f.fname :: ext, by simpa using hext⟩
  | case5 f rest st pool blog hcap hok hdup ih =>
    simp only [fill_pool, if_neg hcap, if_neg (by simpa using hok : ¬f.ok = false), if_neg hdup]; exact ih

/-- The pool only grows by appending accepted images. -/
theorem fill_pool_pool_ext :
    ∀ (avail : List Img) (st : SubSt) (pool : List Img) (blog : List Entry),
      ∃ ext, (fill_pool cap bn cat sub avail st pool blog).pool = pool ++ ext := by
  intro avail st pool blog
  induction avail, st, pool, blog using fill_pool.induct cap bn cat sub with
  | case1 st pool blog => exact ⟨[], by simp [fill_pool]⟩
  | case2 f rest st pool blog hcap => exact ⟨[], by rw [fill_pool, if_pos hcap]; simp⟩
  | case3 f rest st pool blog hcap hok ih =>
    simp only [fill_pool, if_neg hcap, if_pos hok]; exact ih
  | case4 f rest st pool blog hcap hok hdup ih =>
    simp only [fill_pool, if_neg hcap, if_neg (by simpa using hok : ¬f.ok = false), if_pos hdup]; exact ih
  | case5 f rest st pool blog hcap hok hdup ih =>
    simp only [fill_pool, if_neg hcap, if_neg (by simpa using hok : ¬f.ok = false), if_neg hdup]
    obtain ⟨ext, hext⟩ := ih
    exact ⟨f :: ext, by simpa using hext⟩

/-- When the capacity is positive the inner loop keeps drawing while the
pool is empty, so an empty pool on return means the file list was
drained. -/
theorem fill_pool_drain (hcap0 : 0 < cap) :
    ∀ (avail : List Img) (st : SubSt) (blog : List Entry),
      (fill_pool cap bn cat sub avail st [] blog).pool = [] →
      (fill_pool cap bn cat sub avail st [] blog).avail = [] := by
  intro avail
  induction avail with
  | nil => intro st blog _; simp [fill_pool]
  | cons f rest ih =>
    intro st blog hpool
    have hcap : ¬cap ≤ ([] : List Img).length := by
      simp only [List.length_nil]
      omega
    by_cases hok : f.ok = false
    · rw [fill_pool, if_neg hcap, if_pos hok] at hpool ⊢
      exact ih _ _ hpool
    · by_cases hdup : (st.pidx.lookup (HKey.live f.hash)).isSome
      · rw [fill_pool, if_neg hcap, if_neg (by simpa using hok), if_pos hdup] at hpool ⊢
        exact ih _ _ hpool
      · exfalso
        rw [fill_pool, if_neg hcap, if_neg (by simpa using hok), if_neg hdup] at hpool
        obtain ⟨ext, hext⟩ := fill_pool_pool_ext cap bn cat sub rest
          { st with checked := st.checked + 1, pidx := (HKey.live f.hash, bn) :: st.pidx }
          ([] ++ [f]) (blog ++ [⟨cat, sub, bn, f.hash, f.fname⟩])
        rw [hpool] at hext
        simp at hext

/-- The pool never exceeds the grid capacity when it starts within it. -/
theorem fill_pool_cap :
    ∀ (avail : List Img) (st : SubSt) (pool : List Img) (blog : List Entry),
      pool.length ≤ cap →
      (fill_pool cap bn cat sub avail st pool blog).pool.length ≤ cap := by
  intro avail st pool blog
  induction avail, st, pool, blog using fill_pool.induct cap bn cat sub with
  | case1 st pool blog => intro h; simpa [fill_pool] using h
  | case2 f rest st pool blog hcap => intro h; rw [fill_pool, if_pos hcap]; exact h
  | case3 f rest st pool blog hcap hok ih =>
    intro h
    rw [fill_pool, if_neg hcap, if_pos hok]
    exact ih h
  | case4 f rest st pool blog hcap hok hdup ih =>
    intro h
    rw [fill_pool, if_neg hcap, if_neg (by simpa using hok), if_pos hdup]
    exact ih h
  | case5 f rest st pool blog hcap hok hdup ih =>
    intro _
    rw [fill_pool, if_neg hcap, if_neg (by simpa using hok), if_neg hdup]
    exact ih (by simp only [List.length_append, List.length_cons, List.length_nil]; omega)

/-- Provenance of the pool: every image it gains was an `ok` file of the
input whose fingerprint was absent from the index when the call began. -/
theorem fill_pool_pool_mem :
    ∀ (avail : List Img) (st : SubSt) (pool : List Img) (blog : List Entry),
      ∀ g ∈ (fill_pool cap bn cat sub avail st pool blog).pool,
        g ∈ pool ∨ (g ∈ avail ∧ g.ok = true ∧ st.pidx.lookup (HKey.live g.hash) = none) := by
  intro avail st pool blog
  induction avail, st, pool, blog using fill_pool.induct cap bn cat sub with
  | case1 st pool blog => simp [fill_pool]
  | case2 f rest st pool blog hcap =>
    rw [fill_pool, if_pos hcap]; exact fun g hg => Or.inl hg
  | case3 f rest st pool blog hcap hok ih =>
    rw [fill_pool, if_neg hcap, if_pos hok]
    intro g hg
    rcases ih g hg with h | ⟨h1, h2, h3⟩
    · exact Or.inl h
    · exact Or.inr ⟨List.mem_cons_of_mem f h1, h2, h3⟩
  | case4 f rest st pool blog hcap hok hdup ih =>
    rw [fill_pool, if_neg hcap, if_neg (by simpa using hok), if_pos hdup]
    intro g hg
    rcases ih g hg with h | ⟨h1, h2, h3⟩
    · exact Or.inl h
    · exact Or.inr ⟨List.mem_cons_of_mem f h1, h2, h3⟩
  | case5 f rest st pool blog hcap hok hdup ih =>
    rw [fill_pool, if_neg hcap, if_neg (by simpa using hok), if_neg hdup]
    intro g hg
    rcases ih g hg with h | ⟨h1, h2, h3⟩
    · rcases List.mem_append.mp h with h | h
      · exact Or.inl h
      · simp only [List.mem_singleton] at h
        refine Or.inr ⟨by rw [h]; exact List.mem_cons_self f rest, by rw [h]; simpa using hok, ?_⟩
        rw [h]
        exact Option.not_isSome_iff_eq_none.mp hdup
    · refine Or.inr ⟨List.mem_cons_of_mem f h1, h2, ?_⟩
      simp only [List.lookup_cons] at h3
      by_cases hk : HKey.live g.hash == HKey.live f.hash
      · simp [hk] at h3
      · simpa [hk] using h3

/-- Provenance of the duplicate-filename list: every name it gains is
the filename of an `ok` input file. -/
theorem fill_pool_dupf_mem :
    ∀ (avail : List Img) (st : SubSt) (pool : List Img) (blog : List Entry),
      ∀ n ∈ (fill_pool cap bn cat sub avail st pool blog).st.dup_files,
        n ∈ st.dup_files ∨ ∃ g, g ∈ avail ∧ g.ok = true ∧ g.fname = n := by
  intro avail st pool blog
  induction avail, st, pool, blog using fill_pool.induct cap bn cat sub with
  | case1 st pool blog => simp [fill_pool]
  | case2 f rest st pool blog hcap =>
    rw [fill_pool, if_pos hcap]; exact fun n hn => Or.inl hn
  | case3 f rest st pool blog hcap hok ih =>
    rw [fill_pool, if_neg hcap, if_pos hok]
    intro n hn
    rcases ih n hn with h | ⟨g, h1, h2, h3⟩
    · exact Or.inl h
    · exact Or.inr ⟨g, List.mem_cons_of_mem f h1, h2, h3⟩
  | case4 f rest st pool blog hcap hok hdup ih =>
    rw [fill_pool, if_neg hcap, if_neg (by simpa using hok), if_pos hdup]
    intro n hn
    rcases ih n hn with h | ⟨g, h1, h2, h3⟩
    · rcases List.mem_append.mp h with h | h
      · exact Or.inl h
      · simp only [List.mem_singleton] at h
        exact Or.inr ⟨f, List.mem_cons_self f rest, by simpa using hok, h.symm⟩
    · exact Or.inr ⟨g, List.mem_cons_of_mem f h1, h2, h3⟩
  | case5 f rest st pool blog hcap hok hdup ih =>
    rw [fill_pool, if_neg hcap, if_neg (by simpa using hok), if_neg hdup]
    intro n hn
    rcases ih n hn with h | ⟨g, h1, h2, h3⟩
    · exact Or.inl h
    · exact Or.inr ⟨g, List.mem_cons_of_mem f h1, h2, h3⟩

/-- Every `ok` input file whose fingerprint is already indexed is either
recorded in the duplicate list or still unconsumed on return. -/
theorem fill_pool_dup_caught :
    ∀ (avail : List Img) (st : SubSt) (pool : List Img) (blog : List Entry),
      ∀ g ∈ avail, g.ok = true → (st.pidx.lookup (HKey.live g.hash)).isSome →
        g.fname ∈ (fill_pool cap bn cat sub avail st pool blog).st.dup_files ∨
        g ∈ (fill_pool cap bn cat sub avail st pool blog).avail := by
  intro avail st pool blog
  induction avail, st, pool, blog using fill_pool.induct cap bn cat sub with
  | case1 st pool blog => simp [fill_pool]
  | case2 f rest st pool blog hcap =>
    rw [fill_pool, if_pos hcap]; exact fun g hg _ _ => Or.inr hg
  | case3 f rest st pool blog hcap hok ih =>
    rw [fill_pool, if_neg hcap, if_pos hok]
    intro g hg hgok hgdup
    rcases List.mem_cons.mp hg with h | h
    · subst h; rw [hgok] at hok; exact absurd hok (by simp)
    · exact ih g h hgok hgdup
  | case4 f rest st pool blog hcap hok hdup ih =>
    rw [fill_pool, if_neg hcap, if_neg (by simpa using hok), if_pos hdup]
    intro g hg hgok hgdup
    rcases List.mem_cons.mp hg with h | h
    · subst h
      obtain ⟨ext, hext⟩ := fill_pool_dupf_ext cap bn cat sub rest
        { st with checked := st.checked + 1, dups := st.dups + 1,
                  dup_files := st.dup_files ++ [g.fname] } pool blog
      rw [hext]
      exact Or.inl (by simp)
    · exact ih g h hgok hgdup
  | case5 f rest st pool blog hcap hok hdup ih =>
    rw [fill_pool, if_neg hcap, if_neg (by simpa using hok), if_neg hdup]
    intro g hg hgok hgdup
    rcases List.mem_cons.mp hg with h | h
    · subst h; exact absurd hgdup hdup
    · refine ih g h hgok ?_
      simp only [List.lookup_cons]
      by_cases hk : HKey.live g.hash == HKey.live f.hash
      · simp [hk]
      · simpa [hk] using hgdup

/-- The `batch_log` rows track the accepted pool name-for-name. -/
theorem fill_pool_blog_fnames :
    ∀ (avail : List Img) (st : SubSt) (pool : List Img) (blog : List Entry),
      blog.map Entry.fname = pool.map Img.fname →
      (fill_pool cap bn cat sub avail st pool blog).blog.map Entry.fname =
        (fill_pool cap bn cat sub avail st pool blog).pool.map Img.fname := by
  intro avail st pool blog
  induction avail, st, pool, blog using fill_pool.induct cap bn cat sub with
  | case1 st pool blog => intro h; simpa [fill_pool] using h
  | case2 f rest st pool blog hcap => intro h; rw [fill_pool, if_pos hcap]; exact h
  | case3 f rest st pool blog hcap hok ih =>
    intro h
    rw [fill_pool, if_neg hcap, if_pos hok]
    exact ih h
  | case4 f rest st pool blog hcap hok hdup ih =>
    intro h
    rw [fill_pool, if_neg hcap, if_neg (by simpa using hok), if_pos hdup]
    exact ih h
  | case5 f rest st pool blog hcap hok hdup ih =>
    intro h
    rw [fill_pool, if_neg hcap, if_neg (by simpa using hok), if_neg hdup]
    exact ih (by simpa using h)

/-- Atomic check-and-reserve: accepted pool fingerprints stay reserved
in the outgoing index, and the pool's fingerprints stay pairwise
distinct. -/
theorem fill_pool_pool_nodup :
    ∀ (avail : List Img) (st : SubSt) (pool : List Img) (blog : List Entry),
      (∀ g ∈ pool, (st.pidx.lookup (HKey.live g.hash)).isSome) →
      (pool.map Img.hash).Nodup →
      (∀ g ∈ (fill_pool cap bn cat sub avail st pool blog).pool,
          ((fill_pool cap bn cat sub avail st pool blog).st.pidx.lookup (HKey.live g.hash)).isSome) ∧
      ((fill_pool cap bn cat sub avail st pool blog).pool.map Img.hash).Nodup := by
  intro avail st pool blog
  induction avail, st, pool, blog using fill_pool.induct cap bn cat sub with
  | case1 st pool blog => intro h1 h2; exact ⟨by simpa [fill_pool] using h1, by simpa [fill_pool] using h2⟩
  | case2 f rest st pool blog hcap =>
    intro h1 h2; rw [fill_pool, if_pos hcap]; exact ⟨h1, h2⟩
  | case3 f rest st pool blog hcap hok ih =>
    intro h1 h2
    rw [fill_pool, if_neg hcap, if_pos hok]
    exact ih h1 h2
  | case4 f rest st pool blog hcap hok hdup ih =>
    intro h1 h2
    rw [fill_pool, if_neg hcap, if_neg (by simpa using hok), if_pos hdup]
    exact ih h1 h2
  | case5 f rest st pool blog hcap hok hdup ih =>
    intro h1 h2
    rw [fill_pool, if_neg hcap, if_neg (by simpa using hok), if_neg hdup]
    refine ih ?_ ?_
    · intro g hg
      simp only [List.lookup_cons]
      rcases List.mem_append.mp hg with h | h
      · by_cases hk : HKey.live g.hash == HKey.live f.hash
        · simp [hk]
        · simpa [hk] using h1 g h
      · simp only [List.mem_singleton] at h
        subst h
        simp
    · rw [List.map_append]
      refine List.Nodup.append h2 (by simp) ?_
      intro a ha hb
      simp only [List.map_cons, List.map_nil, List.mem_singleton] at hb
      rw [hb] at ha
      simp only [List.mem_map] at ha
      obtain ⟨g, hg, hga⟩ := ha
      have hs := h1 g hg
      rw [hga] at hs
      exact hdup hs

end FillLemmas

/-! ### The grouper's comparator is a total preorder -/

theorem key_rel_total (a b : Img) : key_rel a b ∨ key_rel b a := by
  unfold key_rel
  rcases lt_trichotomy (sort_key a).1 (sort_key b).1 with h | h | h
  · exact Or.inl (Or.inl h)
  · rcases lt_trichotomy (sort_key a).2.1 (sort_key b).2.1 with h2 | h2 | h2
    · exact Or.inl (Or.inr ⟨h, Or.inl h2⟩)
    · rcases le_total (sort_key a).2.2 (sort_key b).2.2 with h3 | h3
      · exact Or.inl (Or.inr ⟨h, Or.inr ⟨h2, h3⟩⟩)
      · exact Or.inr (Or.inr ⟨h.symm, Or.inr ⟨h2.symm, h3⟩⟩)
    · exact Or.inr (Or.inr ⟨h.symm, Or.inl h2⟩)
  · exact Or.inr (Or.inl h)

theorem key_rel_trans (a b c : Img) (h1 : key_rel a b) (h2 : key_rel b c) :
    key_rel a c := by
  unfold key_rel at h1 h2 ⊢
  rcases h1 with h1 | ⟨h1e, h1r⟩
  · rcases h2 with h2 | ⟨h2e, _⟩
    · exact Or.inl (lt_trans h1 h2)
    · exact Or.inl (h2e ▸ h1)
  · rcases h2 with h2 | ⟨h2e, h2r⟩
    · exact Or.inl (h1e ▸ h2)
    · refine Or.inr ⟨h1e.trans h2e, ?_⟩
      rcases h1r with h1r | ⟨h1re, h1rr⟩
      · rcases h2r with h2r | ⟨h2re, _⟩
        · exact Or.inl (lt_trans h1r h2r)
        · exact Or.inl (h2re ▸ h1r)
      · rcases h2r with h2r | ⟨h2re, h2rr⟩
        · exact Or.inl (h1re ▸ h2r)
        · exact Or.inr ⟨h1re.trans h2re, le_trans h1rr h2rr⟩

instance : IsTotal Img key_rel := ⟨key_rel_total⟩

instance : IsTrans Img key_rel := ⟨key_rel_trans⟩

/-- Two records each allowed before the other carry the same sort key
(the comparator is antisymmetric up to key equality, not up to record
identity). -/
theorem key_rel_antisymm_keys {a b : Img} (h1 : key_rel a b) (h2 : key_rel b a) :
    sort_key a = sort_key b := by
  unfold key_rel at h1 h2
  rcases h1 with h1 | ⟨h1e, h1r⟩
  · rcases h2 with h2 | ⟨h2e, _⟩
    · exact absurd h2 (lt_asymm h1)
    · exact absurd (h2e ▸ h1) (lt_irrefl _)
  · rcases h2 with h2 | ⟨h2e, h2r⟩
    · exact absurd (h1e ▸ h2) (lt_irrefl _)
    · have e2 : (sort_key a).2 = (sort_key b).2 := by
        rcases h1r with h1r | ⟨h1re, h1rr⟩
        · rcases h2r with h2r | ⟨h2re, _⟩
          · exact absurd h2r (lt_asymm h1r)
          · exact absurd (h2re ▸ h1r) (lt_irrefl _)
        · rcases h2r with h2r | ⟨h2re, h2rr⟩
          · exact absurd (h1re ▸ h2r) (lt_irrefl _)
          · exact Prod.ext h1re (le_antisymm h1rr h2rr)
      exact Prod.ext h1e e2

/-! ### Invariants of the outer loop -/

section SubLemmas

variable (rows cols : Nat) (cat sub : String)

/-- One-step unfolding of `sub_go` on a nonempty list, with the
branch scrutinees written out. -/
theorem sub_go_succ (fuel : Nat) (f : Img) (rest : List Img) (st : SubSt) (acc : SubAcc) :
    sub_go rows cols cat sub (fuel + 1) (f :: rest) st acc =
      if (fill_pool (rows * cols) acc.bn cat sub (f :: rest) st [] []).pool = [] then
        ⟨(fill_pool (rows * cols) acc.bn cat sub (f :: rest) st [] []).avail,
         (fill_pool (rows * cols) acc.bn cat sub (f :: rest) st [] []).st, acc⟩
      else if (group_images_by_blackness_whiteness_and_color
            (fill_pool (rows * cols) acc.bn cat sub (f :: rest) st [] []).pool).length <
          rows * cols then
        sub_go rows cols cat sub fuel
          (fill_pool (rows * cols) acc.bn cat sub (f :: rest) st [] []).avail
          (fill_pool (rows * cols) acc.bn cat sub (f :: rest) st [] []).st acc
      else
        sub_go rows cols cat sub fuel
          (fill_pool (rows * cols) acc.bn cat sub (f :: rest) st [] []).avail
          (fill_pool (rows * cols) acc.bn cat sub (f :: rest) st [] []).st
          { bn := acc.bn + 1,
            processed := acc.processed + (group_images_by_blackness_whiteness_and_color
              (fill_pool (rows * cols) acc.bn cat sub (f :: rest) st [] []).pool).length,
            stitched := acc.stitched + 1,
            saved := acc.saved ++ [⟨acc.bn,
              (group_images_by_blackness_whiteness_and_color
                (fill_pool (rows * cols) acc.bn cat sub (f :: rest) st [] []).pool).take
                (rows * cols),
              (fill_pool (rows * cols) acc.bn cat sub (f :: rest) st [] []).blog⟩],
            log := acc.log ++
              (fill_pool (rows * cols) acc.bn cat sub (f :: rest) st [] []).blog,
            events := acc.events ++ [Ev.save cat sub acc.bn] } := rfl

/-- With a positive grid capacity the outer loop always drains the file
list. -/
theorem sub_go_drain (hcap0 : 0 < rows * cols) :
    ∀ (fuel : Nat) (avail : List Img) (st : SubSt) (acc : SubAcc),
      avail.length ≤ fuel →
      (sub_go rows cols cat sub fuel avail st acc).final_avail = [] := by
  intro fuel
  induction fuel with
  | zero =>
    intro avail st acc h
    rw [List.length_eq_zero.mp (Nat.le_zero.mp h)]
    rfl
  | succ fuel ih =>
    intro avail st acc h
    match avail with
    | [] => rfl
    | f :: rest =>
      rw [sub_go_succ]
      by_cases hpool : (fill_pool (rows * cols) acc.bn cat sub (f :: rest) st [] []).pool = []
      · rw [if_pos hpool]
        exact fill_pool_drain (rows * cols) acc.bn cat sub hcap0 (f :: rest) st [] hpool
      · rw [if_neg hpool]
        have hlen := fill_pool_length (rows * cols) acc.bn cat sub (f :: rest) st [] []
        have hpos : 0 < (fill_pool (rows * cols) acc.bn cat sub (f :: rest) st [] []).pool.length :=
          List.length_pos.mpr hpool
        have hfit : (fill_pool (rows * cols) acc.bn cat sub (f :: rest) st [] []).avail.length ≤ fuel := by
          simp only [List.length_cons, List.length_nil] at hlen h
          omega
        by_cases hlt : (group_images_by_blackness_whiteness_and_color
            (fill_pool (rows * cols) acc.bn cat sub (f :: rest) st [] []).pool).length < rows * cols
        · rw [if_pos hlt]
          exact ih _ _ _ hfit
        · rw [if_neg hlt]
          exact ih _ _ _ hfit

/-- `checked` counts exactly the files the whole outer loop consumed. -/
theorem sub_go_checked :
    ∀ (fuel : Nat) (avail : List Img) (st : SubSt) (acc : SubAcc),
      avail.length ≤ fuel →
      (sub_go rows cols cat sub fuel avail st acc).st.checked +
        (sub_go rows cols cat sub fuel avail st acc).final_avail.length =
      st.checked + avail.length := by
  intro fuel
  induction fuel with
  | zero => intro avail st acc _; rfl
  | succ fuel ih =>
    intro avail st acc h
    cases avail with
    | nil => rfl
    | cons f rest =>
      rw [sub_go_succ]
      by_cases hpool : (fill_pool (rows * cols) acc.bn cat sub (f :: rest) st [] []).pool = []
      · rw [if_pos hpool]
        exact fill_pool_checked (rows * cols) acc.bn cat sub (f :: rest) st [] []
      · rw [if_neg hpool]
        have hlen := fill_pool_length (rows * cols) acc.bn cat sub (f :: rest) st [] []
        have hpos := List.length_pos.mpr hpool
        have hfit : (fill_pool (rows * cols) acc.bn cat sub (f :: rest) st [] []).avail.length ≤ fuel := by
          simp only [List.length_cons, List.length_nil] at hlen h
          omega
        have hch := fill_pool_checked (rows * cols) acc.bn cat sub (f :: rest) st [] []
        by_cases hlt : (group_images_by_blackness_whiteness_and_color
            (fill_pool (rows * cols) acc.bn cat sub (f :: rest) st [] []).pool).length < rows * cols
        · rw [if_pos hlt]
          have := ih _ (fill_pool (rows * cols) acc.bn cat sub (f :: rest) st [] []).st acc hfit
          omega
        · rw [if_neg hlt]
          have := ih _ (fill_pool (rows * cols) acc.bn cat sub (f :: rest) st [] []).st
            { bn := acc.bn + 1,
              processed := acc.processed + (group_images_by_blackness_whiteness_and_color
                (fill_pool (rows * cols) acc.bn cat sub (f :: rest) st [] []).pool).length,
              stitched := acc.stitched + 1,
              saved := acc.saved ++ [⟨acc.bn,
                (group_images_by_blackness_whiteness_and_color
                  (fill_pool (rows * cols) acc.bn cat sub (f :: rest) st [] []).pool).take
                  (rows * cols),
                (fill_pool (rows * cols) acc.bn cat sub (f :: rest) st [] []).blog⟩],
              log := acc.log ++
                (fill_pool (rows * cols) acc.bn cat sub (f :: rest) st [] []).blog,
              events := acc.events ++ [Ev.save cat sub acc.bn] } hfit
          omega

/-- The duplicate counter and duplicate-filename list stay in lockstep
through the whole outer loop. -/
theorem sub_go_dups :
    ∀ (fuel : Nat) (avail : List Img) (st : SubSt) (acc : SubAcc),
      avail.length ≤ fuel →
      (sub_go rows cols cat sub fuel avail st acc).st.dups +
        st.dup_files.length =
      st.dups + (sub_go rows cols cat sub fuel avail st acc).st.dup_files.length := by
  intro fuel
  induction fuel with
  | zero => intro avail st acc _; rfl
  | succ fuel ih =>
    intro avail st acc h
    cases avail with
    | nil => rfl
    | cons f rest =>
      rw [sub_go_succ]
      by_cases hpool : (fill_pool (rows * cols) acc.bn cat sub (f :: rest) st [] []).pool = []
      · rw [if_pos hpool]
        exact fill_pool_dups (rows * cols) acc.bn cat sub (f :: rest) st [] []
      · rw [if_neg hpool]
        have hlen := fill_pool_length (rows * cols) acc.bn cat sub (f :: rest) st [] []
        have hpos := List.length_pos.mpr hpool
        have hfit : (fill_pool (rows * cols) acc.bn cat sub (f :: rest) st [] []).avail.length ≤ fuel := by
          simp only [List.length_cons, List.length_nil] at hlen h
          omega
        have hd := fill_pool_dups (rows * cols) acc.bn cat sub (f :: rest) st [] []
        by_cases hlt : (group_images_by_blackness_whiteness_and_color
            (fill_pool (rows * cols) acc.bn cat sub (f :: rest) st [] []).pool).length < rows * cols
        · rw [if_pos hlt]
          have := ih _ (fill_pool (rows * cols) acc.bn cat sub (f :: rest) st [] []).st acc hfit
          omega
        · rw [if_neg hlt]
          have := ih _ (fill_pool (rows * cols) acc.bn cat sub (f :: rest) st [] []).st
            { bn := acc.bn + 1,
              processed := acc.processed + (group_images_by_blackness_whiteness_and_color
                (fill_pool (rows * cols) acc.bn cat sub (f :: rest) st [] []).pool).length,
              stitched := acc.stitched + 1,
              saved := acc.saved ++ [⟨acc.bn,
                (group_images_by_blackness_whiteness_and_color
                  (fill_pool (rows * cols) acc.bn cat sub (f :: rest) st [] []).pool).take
                  (rows * cols),
                (fill_pool (rows * cols) acc.bn cat sub (f :: rest) st [] []).blog⟩],
              log := acc.log ++
                (fill_pool (rows * cols) acc.bn cat sub (f :: rest) st [] []).blog,
              events := acc.events ++ [Ev.save cat sub acc.bn] } hfit
          omega

/-- The duplicate-filename list only grows across the outer loop. -/
theorem sub_go_dupf_ext :
    ∀ (fuel : Nat) (avail : List Img) (st : SubSt) (acc : SubAcc),
      avail.length ≤ fuel →
      ∃ ext, (sub_go rows cols cat sub fuel avail st acc).st.dup_files =
        st.dup_files ++ ext := by
  intro fuel
  induction fuel with
  | zero => intro avail st acc _; exact ⟨[], by simp [sub_go]⟩
  | succ fuel ih =>
    intro avail st acc h
    cases avail with
    | nil => exact ⟨[], by simp [sub_go]⟩
    | cons f rest =>
      rw [sub_go_succ]
      by_cases hpool : (fill_pool (rows * cols) acc.bn cat sub (f :: rest) st [] []).pool = []
      · rw [if_pos hpool]
        exact fill_pool_dupf_ext (rows * cols) acc.bn cat sub (f :: rest) st [] []
      · rw [if_neg hpool]
        have hlen := fill_pool_length (rows * cols) acc.bn cat sub (f :: rest) st [] []
        have hpos := List.length_pos.mpr hpool
        have hfit : (fill_pool (rows * cols) acc.bn cat sub (f :: rest) st [] []).avail.length ≤ fuel := by
          simp only [List.length_cons, List.length_nil] at hlen h
          omega
        obtain ⟨e1, he1⟩ := fill_pool_dupf_ext (rows * cols) acc.bn cat sub (f :: rest) st [] []
        by_cases hlt : (group_images_by_blackness_whiteness_and_color
            (fill_pool (rows * cols) acc.bn cat sub (f :: rest) st [] []).pool).length < rows * cols
        · rw [if_pos hlt]
          obtain ⟨e2, he2⟩ := ih _ (fill_pool (rows * cols) acc.bn cat sub (f :: rest) st [] []).st acc hfit
          exact ⟨e1 ++ e2, by rw [he2, he1, List.append_assoc]⟩
        · rw [if_neg hlt]
          obtain ⟨e2, he2⟩ := ih _ (fill_pool (rows * cols) acc.bn cat sub (f :: rest) st [] []).st
            { bn := acc.bn + 1,
              processed := acc.processed + (group_images_by_blackness_whiteness_and_color
                (fill_pool (rows * cols) acc.bn cat sub (f :: rest) st [] []).pool).length,
              stitched := acc.stitched + 1,
              saved := acc.saved ++ [⟨acc.bn,
                (group_images_by_blackness_whiteness_and_color
                  (fill_pool (rows * cols) acc.bn cat sub (f :: rest) st [] []).pool).take
                  (rows * cols),
                (fill_pool (rows * cols) acc.bn cat sub (f :: rest) st [] []).blog⟩],
              log := acc.log ++
                (fill_pool (rows * cols) acc.bn cat sub (f :: rest) st [] []).blog,
              events := acc.events ++ [Ev.save cat sub acc.bn] } hfit
          exact ⟨e1 ++ e2, by rw [he2, he1, List.append_assoc]⟩

/-- The duplicate index only grows across the outer loop. -/
theorem sub_go_pidx_ext :
    ∀ (fuel : Nat) (avail : List Img) (st : SubSt) (acc : SubAcc),
      avail.length ≤ fuel →
      ∃ l, (sub_go rows cols cat sub fuel avail st acc).st.pidx = l ++ st.pidx := by
  intro fuel
  induction fuel with
  | zero => intro avail st acc _; exact ⟨[], by simp [sub_go]⟩
  | succ fuel ih =>
    intro avail st acc h
    cases avail with
    | nil => exact ⟨[], by simp [sub_go]⟩
    | cons f rest =>
      rw [sub_go_succ]
      by_cases hpool : (fill_pool (rows * cols) acc.bn cat sub (f :: rest) st [] []).pool = []
      · rw [if_pos hpool]
        exact fill_pool_pidx_ext (rows * cols) acc.bn cat sub (f :: rest) st [] []
      · rw [if_neg hpool]
        have hlen := fill_pool_length (rows * cols) acc.bn cat sub (f :: rest) st [] []
        have hpos := List.length_pos.mpr hpool
        have hfit : (fill_pool (rows * cols) acc.bn cat sub (f :: rest) st [] []).avail.length ≤ fuel := by
          simp only [List.length_cons, List.length_nil] at hlen h
          omega
        obtain ⟨l1, hl1⟩ := fill_pool_pidx_ext (rows * cols) acc.bn cat sub (f :: rest) st [] []
        by_cases hlt : (group_images_by_blackness_whiteness_and_color
            (fill_pool (rows * cols) acc.bn cat sub (f :: rest) st [] []).pool).length < rows * cols
        · rw [if_pos hlt]
          obtain ⟨l2, hl2⟩ := ih _ (fill_pool (rows * cols) acc.bn cat sub (f :: rest) st [] []).st acc hfit
          exact ⟨l2 ++ l1, by rw [hl2, hl1, List.append_assoc]⟩
        · rw [if_neg hlt]
          obtain ⟨l2, hl2⟩ := ih _ (fill_pool (rows * cols) acc.bn cat sub (f :: rest) st [] []).st
            { bn := acc.bn + 1,
              processed := acc.processed + (group_images_by_blackness_whiteness_and_color
                (fill_pool (rows * cols) acc.bn cat sub (f :: rest) st [] []).pool).length,
              stitched := acc.stitched + 1,
              saved := acc.saved ++ [⟨acc.bn,
                (group_images_by_blackness_whiteness_and_color
                  (fill_pool (rows * cols) acc.bn cat sub (f :: rest) st [] []).pool).take
                  (rows * cols),
                (fill_pool (rows * cols) acc.bn cat sub (f :: rest) st [] []).blog⟩],
              log := acc.log ++
                (fill_pool (rows * cols) acc.bn cat sub (f :: rest) st [] []).blog,
              events := acc.events ++ [Ev.save cat sub acc.bn] } hfit
          exact ⟨l2 ++ l1, by rw [hl2, hl1, List.append_assoc]⟩

/-- With positive capacity, every `ok` file whose fingerprint is already
indexed ends up in the duplicate-filename list. -/
theorem sub_go_dup_caught (hcap0 : 0 < rows * cols) :
    ∀ (fuel : Nat) (avail : List Img) (st : SubSt) (acc : SubAcc),
      avail.length ≤ fuel →
      ∀ g ∈ avail, g.ok = true → (st.pidx.lookup (HKey.live g.hash)).isSome →
        g.fname ∈ (sub_go rows cols cat sub fuel avail st acc).st.dup_files := by
  intro fuel
  induction fuel with
  | zero =>
    intro avail st acc h g hg _ _
    rw [List.length_eq_zero.mp (Nat.le_zero.mp h)] at hg
    exact absurd hg (List.not_mem_nil g)
  | succ fuel ih =>
    intro avail st acc h g hg hok hdup
    cases avail with
    | nil => exact absurd hg (List.not_mem_nil g)
    | cons f rest =>
      rw [sub_go_succ]
      rcases fill_pool_dup_caught (rows * cols) acc.bn cat sub (f :: rest) st [] []
        g hg hok hdup with hcaught | hleft
      · by_cases hpool : (fill_pool (rows * cols) acc.bn cat sub (f :: rest) st [] []).pool = []
        · rw [if_pos hpool]
          exact hcaught
        · rw [if_neg hpool]
          have hlen := fill_pool_length (rows * cols) acc.bn cat sub (f :: rest) st [] []
          have hpos := List.length_pos.mpr hpool
          have hfit : (fill_pool (rows * cols) acc.bn cat sub (f :: rest) st [] []).avail.length ≤ fuel := by
            simp only [List.length_cons, List.length_nil] at hlen h
            omega
          by_cases hlt : (group_images_by_blackness_whiteness_and_color
              (fill_pool (rows * cols) acc.bn cat sub (f :: rest) st [] []).pool).length < rows * cols
          · rw [if_pos hlt]
            obtain ⟨e2, he2⟩ := sub_go_dupf_ext rows cols cat sub fuel _ (fill_pool (rows * cols) acc.bn cat sub (f :: rest) st [] []).st acc hfit
            rw [he2]
            exact List.mem_append_left _ hcaught
          · rw [if_neg hlt]
            obtain ⟨e2, he2⟩ := sub_go_dupf_ext rows cols cat sub fuel _ (fill_pool (rows * cols) acc.bn cat sub (f :: rest) st [] []).st
              { bn := acc.bn + 1,
                processed := acc.processed + (group_images_by_blackness_whiteness_and_color
                  (fill_pool (rows * cols) acc.bn cat sub (f :: rest) st [] []).pool).length,
                stitched := acc.stitched + 1,
                saved := acc.saved ++ [⟨acc.bn,
                  (group_images_by_blackness_whiteness_and_color
                    (fill_pool (rows * cols) acc.bn cat sub (f :: rest) st [] []).pool).take
                    (rows * cols),
                  (fill_pool (rows * cols) acc.bn cat sub (f :: rest) st [] []).blog⟩],
                log := acc.log ++
                  (fill_pool (rows * cols) acc.bn cat sub (f :: rest) st [] []).blog,
                events := acc.events ++ [Ev.save cat sub acc.bn] } hfit
            rw [he2]
            exact List.mem_append_left _ hcaught
      · have hdup2 : ((fill_pool (rows * cols) acc.bn cat sub (f :: rest) st [] []).st.pidx.lookup (HKey.live g.hash)).isSome := by
          obtain ⟨l1, hl1⟩ := fill_pool_pidx_ext (rows * cols) acc.bn cat sub (f :: rest) st [] []
          rw [hl1]
          exact lookup_append_isSome hdup l1
        by_cases hpool : (fill_pool (rows * cols) acc.bn cat sub (f :: rest) st [] []).pool = []
        · exfalso
          have := fill_pool_drain (rows * cols) acc.bn cat sub hcap0 (f :: rest) st [] hpool
          rw [this] at hleft
          exact absurd hleft (List.not_mem_nil g)
        · rw [if_neg hpool]
          have hlen := fill_pool_length (rows * cols) acc.bn cat sub (f :: rest) st [] []
          have hpos := List.length_pos.mpr hpool
          have hfit : (fill_pool (rows * cols) acc.bn cat sub (f :: rest) st [] []).avail.length ≤ fuel := by
            simp only [List.length_cons, List.length_nil] at hlen h
            omega
          by_cases hlt : (group_images_by_blackness_whiteness_and_color
              (fill_pool (rows * cols) acc.bn cat sub (f :: rest) st [] []).pool).length < rows * cols
          · rw [if_pos hlt]
            exact ih _ _ acc hfit g hleft hok hdup2
          · rw [if_neg hlt]
            exact ih _ _ _ hfit g hleft hok hdup2

end SubLemmas

/-- The accumulator after one rendered batch (abbreviates the record the
render branch of `sub_go` builds). -/
def render_acc (cat sub : String) (cap : Nat) (acc : SubAcc) (P : FillRes) : SubAcc :=
  { bn := acc.bn + 1,
    processed := acc.processed +
      (group_images_by_blackness_whiteness_and_color P.pool).length,
    stitched := acc.stitched + 1,
    saved := acc.saved ++
      [⟨acc.bn, (group_images_by_blackness_whiteness_and_color P.pool).take cap, P.blog⟩],
    log := acc.log ++ P.blog,
    events := acc.events ++ [Ev.save cat sub acc.bn] }

section SubLemmasTwo

variable (rows cols : Nat) (cat sub : String)

/-- One-step unfolding of `sub_go`, with the render branch written via
`render_acc`. -/
theorem sub_go_succ2 (fuel : Nat) (f : Img) (rest : List Img) (st : SubSt) (acc : SubAcc) :
    sub_go rows cols cat sub (fuel + 1) (f :: rest) st acc =
      if (fill_pool (rows * cols) acc.bn cat sub (f :: rest) st [] []).pool = [] then
        ⟨(fill_pool (rows * cols) acc.bn cat sub (f :: rest) st [] []).avail,
         (fill_pool (rows * cols) acc.bn cat sub (f :: rest) st [] []).st, acc⟩
      else if (group_images_by_blackness_whiteness_and_color
            (fill_pool (rows * cols) acc.bn cat sub (f :: rest) st [] []).pool).length <
          rows * cols then
        sub_go rows cols cat sub fuel
          (fill_pool (rows * cols) acc.bn cat sub (f :: rest) st [] []).avail
          (fill_pool (rows * cols) acc.bn cat sub (f :: rest) st [] []).st acc
      else
        sub_go rows cols cat sub fuel
          (fill_pool (rows * cols) acc.bn cat sub (f :: rest) st [] []).avail
          (fill_pool (rows * cols) acc.bn cat sub (f :: rest) st [] []).st
          (render_acc cat sub (rows * cols) acc
            (fill_pool (rows * cols) acc.bn cat sub (f :: rest) st [] [])) := rfl

/-- Fuel accounting for the recursive branches. -/
theorem fill_avail_fit (cap bn : Nat) (f : Img) (rest : List Img) (st : SubSt) (fuel : Nat)
    (hpool : ¬(fill_pool cap bn cat sub (f :: rest) st [] []).pool = [])
    (h : (f :: rest).length ≤ fuel + 1) :
    (fill_pool cap bn cat sub (f :: rest) st [] []).avail.length ≤ fuel := by
  have hlen := fill_pool_length cap bn cat sub (f :: rest) st [] []
  have hpos := List.length_pos.mpr hpool
  simp only [List.length_cons, List.length_nil] at hlen h
  omega

/-- A rendered batch takes the whole sorted pool: its image list is the
grouper output itself and holds exactly `rows*cols` images. -/
theorem render_take_all (bn : Nat) (f : Img) (rest : List Img) (st : SubSt)
    (hlt : ¬(group_images_by_blackness_whiteness_and_color
        (fill_pool (rows * cols) bn cat sub (f :: rest) st [] []).pool).length < rows * cols) :
    (group_images_by_blackness_whiteness_and_color
        (fill_pool (rows * cols) bn cat sub (f :: rest) st [] []).pool).take (rows * cols) =
      group_images_by_blackness_whiteness_and_color
        (fill_pool (rows * cols) bn cat sub (f :: rest) st [] []).pool ∧
    (group_images_by_blackness_whiteness_and_color
        (fill_pool (rows * cols) bn cat sub (f :: rest) st [] []).pool).length = rows * cols := by
  have hcapb := fill_pool_cap (rows * cols) bn cat sub (f :: rest) st [] []
    (by simp)
  have hlen : (group_images_by_blackness_whiteness_and_color
      (fill_pool (rows * cols) bn cat sub (f :: rest) st [] []).pool).length =
      (fill_pool (rows * cols) bn cat sub (f :: rest) st [] []).pool.length :=
    List.length_insertionSort _ _
  constructor
  · exact List.take_of_length_le (by omega)
  · omega

/-- Every rendered batch holds exactly `rows*cols` images. -/
theorem sub_go_saved_size :
    ∀ (fuel : Nat) (avail : List Img) (st : SubSt) (acc : SubAcc),
      avail.length ≤ fuel →
      ∀ b ∈ (sub_go rows cols cat sub fuel avail st acc).acc.saved,
        b ∈ acc.saved ∨ b.imgs.length = rows * cols := by
  intro fuel
  induction fuel with
  | zero => intro avail st acc _ b hb; exact Or.inl hb
  | succ fuel ih =>
    intro avail st acc h
    cases avail with
    | nil => intro b hb; exact Or.inl hb
    | cons f rest =>
      rw [sub_go_succ2]
      by_cases hpool : (fill_pool (rows * cols) acc.bn cat sub (f :: rest) st [] []).pool = []
      · rw [if_pos hpool]; intro b hb; exact Or.inl hb
      · rw [if_neg hpool]
        have hfit := fill_avail_fit cat sub (rows * cols) acc.bn f rest st fuel hpool h
        by_cases hlt : (group_images_by_blackness_whiteness_and_color
            (fill_pool (rows * cols) acc.bn cat sub (f :: rest) st [] []).pool).length < rows * cols
        · rw [if_pos hlt]
          exact ih _ _ acc hfit
        · rw [if_neg hlt]
          intro b hb
          rcases ih _ _ (render_acc cat sub (rows * cols) acc
              (fill_pool (rows * cols) acc.bn cat sub (f :: rest) st [] [])) hfit b hb with hin | hsz
          · simp only [render_acc, List.mem_append, List.mem_singleton] at hin
            rcases hin with hin | hin
            · exact Or.inl hin
            · refine Or.inr ?_
              subst hin
              obtain ⟨htake, hlen⟩ := render_take_all rows cols cat sub acc.bn f rest st hlt
              simpa [htake] using hlen
          · exact Or.inr hsz

/-- The run-global `log_entries` list is the initial log plus exactly
the rendered batches' `batch_log` rows, in order. -/
theorem sub_go_log :
    ∀ (fuel : Nat) (avail : List Img) (st : SubSt) (acc : SubAcc) (L0 : List Entry),
      avail.length ≤ fuel →
      acc.log = L0 ++ (acc.saved.map SavedBatch.entries).flatten →
      (sub_go rows cols cat sub fuel avail st acc).acc.log =
        L0 ++ (((sub_go rows cols cat sub fuel avail st acc).acc.saved.map
          SavedBatch.entries)).flatten := by
  intro fuel
  induction fuel with
  | zero => intro avail st acc L0 _ hlog; exact hlog
  | succ fuel ih =>
    intro avail st acc L0 h hlog
    cases avail with
    | nil => exact hlog
    | cons f rest =>
      rw [sub_go_succ2]
      by_cases hpool : (fill_pool (rows * cols) acc.bn cat sub (f :: rest) st [] []).pool = []
      · rw [if_pos hpool]; exact hlog
      · rw [if_neg hpool]
        have hfit := fill_avail_fit cat sub (rows * cols) acc.bn f rest st fuel hpool h
        by_cases hlt : (group_images_by_blackness_whiteness_and_color
            (fill_pool (rows * cols) acc.bn cat sub (f :: rest) st [] []).pool).length < rows * cols
        · rw [if_pos hlt]
          exact ih _ _ acc L0 hfit hlog
        · rw [if_neg hlt]
          refine ih _ _ _ L0 hfit ?_
          simp only [render_acc, List.map_append, List.flatten_append, List.map_cons,
            List.map_nil, List.flatten_cons, List.flatten_nil, List.append_nil, hlog,
            List.append_assoc]

/-- The side-effect trace is the initial trace plus one save event per
rendered batch, in order, carrying the batch numbers. -/
theorem sub_go_events :
    ∀ (fuel : Nat) (avail : List Img) (st : SubSt) (acc : SubAcc) (E0 : List Ev),
      avail.length ≤ fuel →
      acc.events = E0 ++ acc.saved.map (fun b => Ev.save cat sub b.bn) →
      (sub_go rows cols cat sub fuel avail st acc).acc.events =
        E0 ++ (sub_go rows cols cat sub fuel avail st acc).acc.saved.map
          (fun b => Ev.save cat sub b.bn) := by
  intro fuel
  induction fuel with
  | zero => intro avail st acc E0 _ hev; exact hev
  | succ fuel ih =>
    intro avail st acc E0 h hev
    cases avail with
    | nil => exact hev
    | cons f rest =>
      rw [sub_go_succ2]
      by_cases hpool : (fill_pool (rows * cols) acc.bn cat sub (f :: rest) st [] []).pool = []
      · rw [if_pos hpool]; exact hev
      · rw [if_neg hpool]
        have hfit := fill_avail_fit cat sub (rows * cols) acc.bn f rest st fuel hpool h
        by_cases hlt : (group_images_by_blackness_whiteness_and_color
            (fill_pool (rows * cols) acc.bn cat sub (f :: rest) st [] []).pool).length < rows * cols
        · rw [if_pos hlt]
          exact ih _ _ acc E0 hfit hev
        · rw [if_neg hlt]
          refine ih _ _ _ E0 hfit ?_
          simp only [render_acc, List.map_append, List.map_cons, List.map_nil, hev,
            List.append_assoc, List.nil_append]

/-- Batch numbers are handed out consecutively from the current counter,
one per rendered batch, moving in lockstep with the stitched counter and
the saved list. -/
theorem sub_go_bn :
    ∀ (fuel : Nat) (avail : List Img) (st : SubSt) (acc : SubAcc),
      avail.length ≤ fuel →
      ∃ k, (sub_go rows cols cat sub fuel avail st acc).acc.saved.map SavedBatch.bn =
          acc.saved.map SavedBatch.bn ++ List.range' acc.bn k ∧
        (sub_go rows cols cat sub fuel avail st acc).acc.bn = acc.bn + k ∧
        (sub_go rows cols cat sub fuel avail st acc).acc.saved.length =
          acc.saved.length + k ∧
        (sub_go rows cols cat sub fuel avail st acc).acc.stitched = acc.stitched + k := by
  intro fuel
  induction fuel with
  | zero =>
    intro avail st acc _
    exact ⟨0, by simp [sub_go, List.range']⟩
  | succ fuel ih =>
    intro avail st acc h
    cases avail with
    | nil => exact ⟨0, by simp [sub_go, List.range']⟩
    | cons f rest =>
      rw [sub_go_succ2]
      by_cases hpool : (fill_pool (rows * cols) acc.bn cat sub (f :: rest) st [] []).pool = []
      · rw [if_pos hpool]; exact ⟨0, by simp [List.range']⟩
      · rw [if_neg hpool]
        have hfit := fill_avail_fit cat sub (rows * cols) acc.bn f rest st fuel hpool h
        by_cases hlt : (group_images_by_blackness_whiteness_and_color
            (fill_pool (rows * cols) acc.bn cat sub (f :: rest) st [] []).pool).length < rows * cols
        · rw [if_pos hlt]
          exact ih _ _ acc hfit
        · rw [if_neg hlt]
          obtain ⟨k, hmap, hbn, hlen, hst⟩ := ih _ _ (render_acc cat sub (rows * cols) acc
            (fill_pool (rows * cols) acc.bn cat sub (f :: rest) st [] [])) hfit
          refine ⟨k + 1, ?_, ?_, ?_, ?_⟩
          · rw [hmap]
            simp only [render_acc, List.map_append, List.map_cons, List.map_nil]
            rw [List.range'_succ acc.bn k 1]
            simp [List.append_assoc]
          · rw [hbn]; simp only [render_acc]; omega
          · rw [hlen]; simp only [render_acc, List.length_append, List.length_cons,
              List.length_nil]; omega
          · rw [hst]; simp only [render_acc]; omega

/-- The processed counter equals its seed plus the total size of the
rendered batches. -/
theorem sub_go_processed :
    ∀ (fuel : Nat) (avail : List Img) (st : SubSt) (acc : SubAcc) (P0 : Nat),
      avail.length ≤ fuel →
      acc.processed = P0 + ((acc.saved.map (fun b => b.imgs.length)).sum) →
      (sub_go rows cols cat sub fuel avail st acc).acc.processed =
        P0 + (((sub_go rows cols cat sub fuel avail st acc).acc.saved.map
          (fun b => b.imgs.length)).sum) := by
  intro fuel
  induction fuel with
  | zero => intro avail st acc P0 _ hp; exact hp
  | succ fuel ih =>
    intro avail st acc P0 h hp
    cases avail with
    | nil => exact hp
    | cons f rest =>
      rw [sub_go_succ2]
      by_cases hpool : (fill_pool (rows * cols) acc.bn cat sub (f :: rest) st [] []).pool = []
      · rw [if_pos hpool]; exact hp
      · rw [if_neg hpool]
        have hfit := fill_avail_fit cat sub (rows * cols) acc.bn f rest st fuel hpool h
        by_cases hlt : (group_images_by_blackness_whiteness_and_color
            (fill_pool (rows * cols) acc.bn cat sub (f :: rest) st [] []).pool).length < rows * cols
        · rw [if_pos hlt]
          exact ih _ _ acc P0 hfit hp
        · rw [if_neg hlt]
          refine ih _ _ _ P0 hfit ?_
          obtain ⟨htake, hlen⟩ := render_take_all rows cols cat sub acc.bn f rest st hlt
          simp only [render_acc, List.map_append, List.map_cons, List.map_nil,
            List.sum_append, List.sum_cons, List.sum_nil, hp, htake]
          omega

/-- Provenance of rendered batches: every image of every batch rendered
by the loop is an `ok` input file whose fingerprint was absent from the
incoming index. -/
theorem sub_go_saved_mem :
    ∀ (fuel : Nat) (avail : List Img) (st : SubSt) (acc : SubAcc),
      avail.length ≤ fuel →
      ∀ b ∈ (sub_go rows cols cat sub fuel avail st acc).acc.saved,
        b ∈ acc.saved ∨
        ∀ g ∈ b.imgs, g ∈ avail ∧ g.ok = true ∧ st.pidx.lookup (HKey.live g.hash) = none := by
  intro fuel
  induction fuel with
  | zero => intro avail st acc _ b hb; exact Or.inl hb
  | succ fuel ih =>
    intro avail st acc h
    cases avail with
    | nil => intro b hb; exact Or.inl hb
    | cons f rest =>
      rw [sub_go_succ2]
      by_cases hpool : (fill_pool (rows * cols) acc.bn cat sub (f :: rest) st [] []).pool = []
      · rw [if_pos hpool]; intro b hb; exact Or.inl hb
      · rw [if_neg hpool]
        have hfit := fill_avail_fit cat sub (rows * cols) acc.bn f rest st fuel hpool h
        have hweak : ∀ b : SavedBatch,
            (∀ g ∈ b.imgs,
              g ∈ (fill_pool (rows * cols) acc.bn cat sub (f :: rest) st [] []).avail ∧
              g.ok = true ∧
              (fill_pool (rows * cols) acc.bn cat sub (f :: rest) st [] []).st.pidx.lookup
                (HKey.live g.hash) = none) →
            ∀ g ∈ b.imgs, g ∈ f :: rest ∧ g.ok = true ∧ st.pidx.lookup (HKey.live g.hash) = none := by
          intro b hball g hg
          obtain ⟨h1, h2, h3⟩ := hball g hg
          refine ⟨fill_pool_avail_mem (rows * cols) acc.bn cat sub (f :: rest) st [] [] g h1,
            h2, ?_⟩
          obtain ⟨l, hl⟩ := fill_pool_pidx_ext (rows * cols) acc.bn cat sub (f :: rest) st [] []
          rw [hl] at h3
          exact lookup_append_none l _ h3
        have hnew : ∀ g ∈ (fill_pool (rows * cols) acc.bn cat sub (f :: rest) st [] []).pool,
            g ∈ f :: rest ∧ g.ok = true ∧ st.pidx.lookup (HKey.live g.hash) = none := by
          intro g hg
          rcases fill_pool_pool_mem (rows * cols) acc.bn cat sub (f :: rest) st [] [] g hg with
            hfalse | hok
          · exact absurd hfalse (List.not_mem_nil g)
          · exact hok
        by_cases hlt : (group_images_by_blackness_whiteness_and_color
            (fill_pool (rows * cols) acc.bn cat sub (f :: rest) st [] []).pool).length < rows * cols
        · rw [if_pos hlt]
          intro b hb
          rcases ih _ _ acc hfit b hb with hin | hball
          · exact Or.inl hin
          · exact Or.inr (hweak b hball)
        · rw [if_neg hlt]
          intro b hb
          rcases ih _ _ (render_acc cat sub (rows * cols) acc
              (fill_pool (rows * cols) acc.bn cat sub (f :: rest) st [] [])) hfit b hb with
            hin | hball
          · simp only [render_acc, List.mem_append, List.mem_singleton] at hin
            rcases hin with hin | hin
            · exact Or.inl hin
            · refine Or.inr ?_
              subst hin
              intro g hg
              simp only at hg
              have hg2 : g ∈ group_images_by_blackness_whiteness_and_color
                  (fill_pool (rows * cols) acc.bn cat sub (f :: rest) st [] []).pool :=
                List.mem_of_mem_take hg
              have hg3 : g ∈ (fill_pool (rows * cols) acc.bn cat sub (f :: rest) st [] []).pool :=
                (List.mem_insertionSort key_rel).mp hg2
              exact hnew g hg3
          · exact Or.inr (hweak b hball)

/-- Each rendered batch's ledger rows name exactly the batch's images
(the rows are collected in acceptance order, the images sit in grouper
order). -/
theorem sub_go_entries_fnames :
    ∀ (fuel : Nat) (avail : List Img) (st : SubSt) (acc : SubAcc),
      avail.length ≤ fuel →
      ∀ b ∈ (sub_go rows cols cat sub fuel avail st acc).acc.saved,
        b ∈ acc.saved ∨ (b.entries.map Entry.fname).Perm (b.imgs.map Img.fname) := by
  intro fuel
  induction fuel with
  | zero => intro avail st acc _ b hb; exact Or.inl hb
  | succ fuel ih =>
    intro avail st acc h
    cases avail with
    | nil => intro b hb; exact Or.inl hb
    | cons f rest =>
      rw [sub_go_succ2]
      by_cases hpool : (fill_pool (rows * cols) acc.bn cat sub (f :: rest) st [] []).pool = []
      · rw [if_pos hpool]; intro b hb; exact Or.inl hb
      · rw [if_neg hpool]
        have hfit := fill_avail_fit cat sub (rows * cols) acc.bn f rest st fuel hpool h
        by_cases hlt : (group_images_by_blackness_whiteness_and_color
            (fill_pool (rows * cols) acc.bn cat sub (f :: rest) st [] []).pool).length < rows * cols
        · rw [if_pos hlt]
          exact ih _ _ acc hfit
        · rw [if_neg hlt]
          intro b hb
          rcases ih _ _ (render_acc cat sub (rows * cols) acc
              (fill_pool (rows * cols) acc.bn cat sub (f :: rest) st [] [])) hfit b hb with
            hin | hperm
          · simp only [render_acc, List.mem_append, List.mem_singleton] at hin
            rcases hin with hin | hin
            · exact Or.inl hin
            · refine Or.inr ?_
              subst hin
              obtain ⟨htake, _⟩ := render_take_all rows cols cat sub acc.bn f rest st hlt
              simp only [htake]
              have hblog : (fill_pool (rows * cols) acc.bn cat sub (f :: rest) st [] []).blog.map
                  Entry.fname =
                  (fill_pool (rows * cols) acc.bn cat sub (f :: rest) st [] []).pool.map
                    Img.fname :=
                fill_pool_blog_fnames (rows * cols) acc.bn cat sub (f :: rest) st [] [] rfl
              rw [hblog]
              exact (List.Perm.map Img.fname
                (List.perm_insertionSort key_rel _)).symm
          · exact Or.inr hperm

/-- Check-and-reserve is atomic across the whole loop: every image of a
rendered batch keeps its fingerprint reserved in the outgoing index, and
no fingerprint appears twice across all rendered batches. -/
theorem sub_go_hash_inv :
    ∀ (fuel : Nat) (avail : List Img) (st : SubSt) (acc : SubAcc),
      avail.length ≤ fuel →
      (∀ b ∈ acc.saved, ∀ g ∈ b.imgs, (st.pidx.lookup (HKey.live g.hash)).isSome) →
      ((acc.saved.map (fun b => b.imgs.map Img.hash)).flatten).Nodup →
      (∀ b ∈ (sub_go rows cols cat sub fuel avail st acc).acc.saved,
        ∀ g ∈ b.imgs,
          ((sub_go rows cols cat sub fuel avail st acc).st.pidx.lookup (HKey.live g.hash)).isSome) ∧
      (((sub_go rows cols cat sub fuel avail st acc).acc.saved.map
        (fun b => b.imgs.map Img.hash)).flatten).Nodup := by
  intro fuel
  induction fuel with
  | zero => intro avail st acc _ h1 h2; exact ⟨h1, h2⟩
  | succ fuel ih =>
    intro avail st acc h h1 h2
    cases avail with
    | nil => exact ⟨h1, h2⟩
    | cons f rest =>
      rw [sub_go_succ2]
      have hsome : ∀ b ∈ acc.saved, ∀ g ∈ b.imgs,
          ((fill_pool (rows * cols) acc.bn cat sub (f :: rest) st [] []).st.pidx.lookup
            (HKey.live g.hash)).isSome := by
        intro b hb g hg
        obtain ⟨l, hl⟩ := fill_pool_pidx_ext (rows * cols) acc.bn cat sub (f :: rest) st [] []
        rw [hl]
        exact lookup_append_isSome (h1 b hb g hg) l
      by_cases hpool : (fill_pool (rows * cols) acc.bn cat sub (f :: rest) st [] []).pool = []
      · rw [if_pos hpool]
        exact ⟨hsome, h2⟩
      · rw [if_neg hpool]
        have hfit := fill_avail_fit cat sub (rows * cols) acc.bn f rest st fuel hpool h
        have hpn := fill_pool_pool_nodup (rows * cols) acc.bn cat sub (f :: rest) st [] []
          (by intro g hg; exact absurd hg (List.not_mem_nil g)) (by simp)
        by_cases hlt : (group_images_by_blackness_whiteness_and_color
            (fill_pool (rows * cols) acc.bn cat sub (f :: rest) st [] []).pool).length < rows * cols
        · rw [if_pos hlt]
          exact ih _ _ acc hfit hsome h2
        · rw [if_neg hlt]
          obtain ⟨htake, _⟩ := render_take_all rows cols cat sub acc.bn f rest st hlt
          have hpermhash : ((group_images_by_blackness_whiteness_and_color
              (fill_pool (rows * cols) acc.bn cat sub (f :: rest) st [] []).pool).map
                Img.hash).Perm
              ((fill_pool (rows * cols) acc.bn cat sub (f :: rest) st [] []).pool.map
                Img.hash) :=
            List.Perm.map Img.hash (List.perm_insertionSort key_rel _)
          refine ih _ _ (render_acc cat sub (rows * cols) acc
            (fill_pool (rows * cols) acc.bn cat sub (f :: rest) st [] [])) hfit ?_ ?_
          · intro b hb g hg
            simp only [render_acc, List.mem_append, List.mem_singleton] at hb
            rcases hb with hb | hb
            · exact hsome b hb g hg
            · subst hb
              simp only [htake] at hg
              exact hpn.1 g ((List.mem_insertionSort key_rel).mp hg)
          · simp only [render_acc, List.map_append, List.map_cons, List.map_nil,
              List.flatten_append, List.flatten_cons, List.flatten_nil, List.append_nil, htake]
            refine List.Nodup.append h2 (hpermhash.symm.nodup hpn.2) ?_
            intro a ha hb
            simp only [List.mem_flatten, List.mem_map] at ha
            obtain ⟨l, ⟨b0, hb0, hl⟩, hal⟩ := ha
            subst hl
            simp only [List.mem_map] at hal
            obtain ⟨g0, hg0, hga⟩ := hal
            have hold := h1 b0 hb0 g0 hg0
            have hbmem := hpermhash.mem_iff.mp hb
            simp only [List.mem_map] at hbmem
            obtain ⟨g1, hg1, hga1⟩ := hbmem
            rcases fill_pool_pool_mem (rows * cols) acc.bn cat sub (f :: rest) st [] []
              g1 hg1 with hfalse | ⟨_, _, hnone⟩
            · exact absurd hfalse (List.not_mem_nil g1)
            · rw [hga] at hold
              rw [← hga1] at hold
              rw [hnone] at hold
              exact absurd hold (by simp)

end SubLemmasTwo

/-! ### The spec's claimed comparator (for the refinement claims) -/

/-- The comparator the spec claims (stated from the spec's words, to be
compared against the source's): blackness descending, whiteness
ascending, gray distance ascending, remaining ties broken by the
original filename. -/
def spec_key_rel (a b : Img) : Prop :=
  (sort_key a).1 < (sort_key b).1 ∨ ((sort_key a).1 = (sort_key b).1 ∧
    ((sort_key a).2.1 < (sort_key b).2.1 ∨ ((sort_key a).2.1 = (sort_key b).2.1 ∧
      ((sort_key a).2.2 < (sort_key b).2.2 ∨ ((sort_key a).2.2 = (sort_key b).2.2 ∧
        (a.fname.data < b.fname.data ∨ a.fname = b.fname))))))

instance : DecidableRel spec_key_rel := fun _ _ =>
  inferInstanceAs (Decidable (_ ∨ _))

/-- Sample records for concrete inputs: two records with identical sort
keys whose filenames are in reverse alphabetical order, and two with
distinct keys. -/
def imgTieA : Img := ⟨"a.png", true, 1, 0, 0, 0, 0, 0⟩

def imgTieB : Img := ⟨"b.png", true, 2, 0, 0, 0, 0, 0⟩

def imgDark : Img := ⟨"dark.png", true, 3, 0, 0, 0, 0, 1⟩

def imgLight : Img := ⟨"light.png", true, 4, 0, 0, 0, 1, 0⟩

/-- A sorted list is determined by its multiset once the order is
antisymmetric on its members. -/
theorem sorted_perm_unique {α : Type} {r : α → α → Prop} :
    ∀ {l₁ l₂ : List α}, l₁.Perm l₂ → l₁.Pairwise r → l₂.Pairwise r →
      (∀ a ∈ l₁, ∀ b ∈ l₁, r a b → r b a → a = b) → l₁ = l₂ := by
  intro l₁
  induction l₁ with
  | nil =>
    intro l₂ hp _ _ _
    exact (List.Perm.nil_eq hp).symm.symm
  | cons a t ih =>
    intro l₂ hp hs₁ hs₂ hanti
    cases l₂ with
    | nil => exact absurd hp.symm (by simp)
    | cons b u =>
      have hab : a = b := by
        have hbmem : b ∈ a :: t := hp.mem_iff.mpr (List.mem_cons_self b u)
        rcases List.mem_cons.mp hbmem with hh | hh
        · exact hh.symm
        · have hamem : a ∈ b :: u := hp.mem_iff.mp (List.mem_cons_self a t)
          rcases List.mem_cons.mp hamem with hh' | hh'
          · exact hh'
          · have h1 : r a b := List.rel_of_pairwise_cons hs₁ hh
            have h2 : r b a := List.rel_of_pairwise_cons hs₂ hh'
            exact hanti a (List.mem_cons_self a t) b hbmem h1 h2
      subst hab
      have hperm' : t.Perm u := hp.cons_inv
      rw [ih hperm' (List.Pairwise.of_cons hs₁) (List.Pairwise.of_cons hs₂)
        (fun x hx y hy => hanti x (List.mem_cons_of_mem a hx) y (List.mem_cons_of_mem a hy))]

section SubLemmasThree

variable (rows cols : Nat) (cat sub : String)

/-- Provenance of the duplicate-filename list across the outer loop:
every recorded name belongs to an `ok` input file. -/
theorem sub_go_dupf_mem :
    ∀ (fuel : Nat) (avail : List Img) (st : SubSt) (acc : SubAcc),
      avail.length ≤ fuel →
      ∀ n ∈ (sub_go rows cols cat sub fuel avail st acc).st.dup_files,
        n ∈ st.dup_files ∨ ∃ g, g ∈ avail ∧ g.ok = true ∧ g.fname = n := by
  intro fuel
  induction fuel with
  | zero => intro avail st acc _ n hn; exact Or.inl hn
  | succ fuel ih =>
    intro avail st acc h
    cases avail with
    | nil => intro n hn; exact Or.inl hn
    | cons f rest =>
      rw [sub_go_succ2]
      have hweak : ∀ n,
          (n ∈ (fill_pool (rows * cols) acc.bn cat sub (f :: rest) st [] []).st.dup_files ∨
            ∃ g, g ∈ (fill_pool (rows * cols) acc.bn cat sub (f :: rest) st [] []).avail ∧
              g.ok = true ∧ g.fname = n) →
          n ∈ st.dup_files ∨ ∃ g, g ∈ f :: rest ∧ g.ok = true ∧ g.fname = n := by
        intro n hn
        rcases hn with hn | ⟨g, hg, hgok, hgn⟩
        · exact fill_pool_dupf_mem (rows * cols) acc.bn cat sub (f :: rest) st [] [] n hn
        · exact Or.inr ⟨g,
            fill_pool_avail_mem (rows * cols) acc.bn cat sub (f :: rest) st [] [] g hg,
            hgok, hgn⟩
      by_cases hpool : (fill_pool (rows * cols) acc.bn cat sub (f :: rest) st [] []).pool = []
      · rw [if_pos hpool]
        intro n hn
        exact fill_pool_dupf_mem (rows * cols) acc.bn cat sub (f :: rest) st [] [] n hn
      · rw [if_neg hpool]
        have hfit := fill_avail_fit cat sub (rows * cols) acc.bn f rest st fuel hpool h
        by_cases hlt : (group_images_by_blackness_whiteness_and_color
            (fill_pool (rows * cols) acc.bn cat sub (f :: rest) st [] []).pool).length < rows * cols
        · rw [if_pos hlt]
          intro n hn
          exact hweak n (ih _ _ acc hfit n hn)
        · rw [if_neg hlt]
          intro n hn
          exact hweak n (ih _ _ (render_acc cat sub (rows * cols) acc
            (fill_pool (rows * cols) acc.bn cat sub (f :: rest) st [] [])) hfit n hn)

end SubLemmasThree

/-! ### Unfolding equations for `process_subcategory` -/

theorem process_subcategory_res (rows cols : Nat) (cat sub : String)
    (files : List Img) (pidx : List (HKey × Nat)) (log : List Entry) (events : List Ev) :
    (process_subcategory rows cols cat sub files pidx log events).res =
      sub_go rows cols cat sub (files.filter (fun f => is_image_file f.fname)).length
        (files.filter (fun f => is_image_file f.fname))
        ⟨0, 0, [], pidx⟩ ⟨1, 0, 0, [], log, events⟩ := rfl

theorem process_subcategory_listed (rows cols : Nat) (cat sub : String)
    (files : List Img) (pidx : List (HKey × Nat)) (log : List Entry) (events : List Ev) :
    (process_subcategory rows cols cat sub files pidx log events).listed =
      files.filter (fun f => is_image_file f.fname) := rfl

theorem process_subcategory_sums (rows cols : Nat) (cat sub : String)
    (files : List Img) (pidx : List (HKey × Nat)) (log : List Entry) (events : List Ev) :
    (process_subcategory rows cols cat sub files pidx log events).sum_images_in_folder =
      (process_subcategory rows cols cat sub files pidx log events).res.final_avail.length ∧
    (process_subcategory rows cols cat sub files pidx log events).sum_checked =
      (process_subcategory rows cols cat sub files pidx log events).res.st.checked ∧
    (process_subcategory rows cols cat sub files pidx log events).sum_dups =
      (process_subcategory rows cols cat sub files pidx log events).res.st.dups ∧
    (process_subcategory rows cols cat sub files pidx log events).sum_processed =
      (process_subcategory rows cols cat sub files pidx log events).res.acc.processed ∧
    (process_subcategory rows cols cat sub files pidx log events).sum_stitched =
      (process_subcategory rows cols cat sub files pidx log events).res.acc.stitched :=
  ⟨rfl, rfl, rfl, rfl, rfl⟩

/-- C3 counterexample: on a pool of two records with identical features
and filenames in reverse alphabetical order, the grouper keeps arrival
order, which is not sorted by the claimed filename-tiebreak comparator. -/
theorem c3_counterexample :
    group_images_by_blackness_whiteness_and_color [imgTieB, imgTieA] = [imgTieB, imgTieA] ∧
    ¬ List.Pairwise spec_key_rel
      (group_images_by_blackness_whiteness_and_color [imgTieB, imgTieA]) := by
  constructor
  · decide
  · decide

/-- C3 (amended): the grouper sorts every pool by the single
deterministic comparator whose keys are, in priority order, blackness
descending, whiteness ascending, then squared distance of the dominant
colour from mid-gray (128,128,128) ascending; remaining ties keep the
pool's arrival order (the sort is stable) — they are not broken by
filename. -/
theorem c3_grouper_sorts_by_comparator (pool : List Img) :
    (group_images_by_blackness_whiteness_and_color pool).Perm pool ∧
    (group_images_by_blackness_whiteness_and_color pool).Pairwise key_rel ∧
    ∀ c : List Img, c.Pairwise key_rel → c.Sublist pool →
      c.Sublist (group_images_by_blackness_whiteness_and_color pool) := by
  refine ⟨List.perm_insertionSort key_rel pool, List.sorted_insertionSort key_rel pool, ?_⟩
  intro c hc hsub
  exact List.sublist_insertionSort hc hsub

/-- C4 counterexample: two pools holding the same multiset of records
(equal features, filenames `b.png`/`a.png`) in opposite arrival orders
produce different grouper outputs. -/
theorem c4_counterexample :
    ([imgTieB, imgTieA] : List Img).Perm [imgTieA, imgTieB] ∧
    group_images_by_blackness_whiteness_and_color [imgTieB, imgTieA] ≠
      group_images_by_blackness_whiteness_and_color [imgTieA, imgTieB] := by
  constructor
  · decide
  · decide

/-- C4 (amended): for two pools holding the same multiset of records,
the grouper outputs are identical whenever no two distinct records of
the pool share a sort key; ties between distinct records are resolved by
arrival order, so only key-duplicate pools are order-sensitive. -/
theorem c4_grouper_deterministic (p₁ p₂ : List Img) (hperm : p₁.Perm p₂)
    (hinj : ∀ a ∈ p₁, ∀ b ∈ p₁, sort_key a = sort_key b → a = b) :
    group_images_by_blackness_whiteness_and_color p₁ =
      group_images_by_blackness_whiteness_and_color p₂ := by
  apply sorted_perm_unique (r := key_rel)
  · exact ((List.perm_insertionSort key_rel p₁).trans hperm).trans
      (List.perm_insertionSort key_rel p₂).symm
  · exact List.sorted_insertionSort key_rel p₁
  · exact List.sorted_insertionSort key_rel p₂
  · intro a ha b hb h1 h2
    exact hinj a ((List.mem_insertionSort key_rel).mp ha)
      b ((List.mem_insertionSort key_rel).mp hb) (key_rel_antisymm_keys h1 h2)

/-- C4 witness: the amended determinism at a concrete two-record pool
with distinct keys. -/
theorem c4_witness :
    (([imgDark, imgLight] : List Img).Perm [imgLight, imgDark] ∧
      (∀ a ∈ ([imgDark, imgLight] : List Img), ∀ b ∈ ([imgDark, imgLight] : List Img),
        sort_key a = sort_key b → a = b)) ∧
    group_images_by_blackness_whiteness_and_color [imgDark, imgLight] =
      group_images_by_blackness_whiteness_and_color [imgLight, imgDark] :=
  ⟨⟨by decide, by decide⟩,
    c4_grouper_deterministic [imgDark, imgLight] [imgLight, imgDark]
      (by decide) (by decide)⟩

/-- C7: for a batch of exactly `rows*cols` images in grouper order, the
compositor canvas is `(cols·width, rows·height)` and the image at index
`j` is pasted at pixel offset `((j mod cols)·width, (j div cols)·height)`,
i.e. grid cell `(j / cols, j % cols)` in (row, column) units. -/
theorem c7_composite_placement (rows cols w h : Nat) (imgs : List Img)
    (hlen : imgs.length = rows * cols) :
    (stitch_batch rows cols w h imgs).1 = (cols * w, rows * h) ∧
    (stitch_batch rows cols w h imgs).2.length = imgs.length ∧
    ∀ j : Nat, j < imgs.length →
      (stitch_batch rows cols w h imgs).2[j]? =
        (imgs[j]?).map (fun im => (im, (j % cols) * w, (j / cols) * h)) := by
  have htake : imgs.take (rows * cols) = imgs := List.take_of_length_le (le_of_eq hlen)
  unfold stitch_batch
  rw [htake]
  refine ⟨rfl, by simp, ?_⟩
  intro j hj
  simp only [List.getElem?_map, List.getElem?_enum, Option.map_map]
  cases imgs[j]? <;> rfl

/-- C7 witness: a concrete 2×2 grid with images A,B,C,D in grouper
order places A at (0,0), B at (512,0), C at (0,512), D at (512,512). -/
theorem c7_witness :
    ([imgTieA, imgTieB, imgDark, imgLight] : List Img).length = 2 * 2 ∧
    ((stitch_batch 2 2 512 512 [imgTieA, imgTieB, imgDark, imgLight]).1 = (2 * 512, 2 * 512) ∧
      (stitch_batch 2 2 512 512 [imgTieA, imgTieB, imgDark, imgLight]).2.length =
        ([imgTieA, imgTieB, imgDark, imgLight] : List Img).length ∧
      ∀ j : Nat, j < ([imgTieA, imgTieB, imgDark, imgLight] : List Img).length →
        (stitch_batch 2 2 512 512 [imgTieA, imgTieB, imgDark, imgLight]).2[j]? =
          (([imgTieA, imgTieB, imgDark, imgLight] : List Img)[j]?).map
            (fun im => (im, (j % 2) * 512, (j / 2) * 512))) :=
  ⟨by decide, c7_composite_placement 2 2 512 512 [imgTieA, imgTieB, imgDark, imgLight] (by decide)⟩

/-- C2: every rendered batch of a subcategory holds exactly `rows*cols`
images; the run log gains exactly the rendered batches' rows — a pool
short of the grid capacity is never rendered and its images' rows are
never written, so those images are reconsidered on a future run; and
each rendered batch's rows name exactly its images. -/
theorem c2_batch_completeness (rows cols : Nat) (cat sub : String)
    (files : List Img) (pidx : List (HKey × Nat)) (log : List Entry) (events : List Ev) :
    (∀ b ∈ (process_subcategory rows cols cat sub files pidx log events).res.acc.saved,
      b.imgs.length = rows * cols) ∧
    (process_subcategory rows cols cat sub files pidx log events).res.acc.log =
      log ++ (((process_subcategory rows cols cat sub files pidx log events).res.acc.saved).map
        SavedBatch.entries).flatten ∧
    ∀ b ∈ (process_subcategory rows cols cat sub files pidx log events).res.acc.saved,
      (b.entries.map Entry.fname).Perm (b.imgs.map Img.fname) := by
  rw [process_subcategory_res]
  refine ⟨?_, ?_, ?_⟩
  · intro b hb
    rcases sub_go_saved_size rows cols cat sub _ _ _ _ (le_refl _) b hb with hin | hsz
    · exact absurd hin (List.not_mem_nil b)
    · exact hsz
  · exact sub_go_log rows cols cat sub _ _ _ _ log (le_refl _) (by simp)
  · intro b hb
    rcases sub_go_entries_fnames rows cols cat sub _ _ _ _ (le_refl _) b hb with hin | hperm
    · exact absurd hin (List.not_mem_nil b)
    · exact hperm

/-- C5: within a subcategory run, batch numbers are exactly the dense
sequence 1, 2, 3, … in save order — one number per successfully
composited and saved batch, matching the stitched counter, so a skipped
or incomplete batch consumes no number. -/
theorem c5_batch_numbers (rows cols : Nat) (cat sub : String)
    (files : List Img) (pidx : List (HKey × Nat)) (log : List Entry) (events : List Ev) :
    (process_subcategory rows cols cat sub files pidx log events).res.acc.saved.map
        SavedBatch.bn =
      List.range' 1
        (process_subcategory rows cols cat sub files pidx log events).res.acc.saved.length ∧
    (process_subcategory rows cols cat sub files pidx log events).sum_stitched =
      (process_subcategory rows cols cat sub files pidx log events).res.acc.saved.length := by
  rw [(process_subcategory_sums rows cols cat sub files pidx log events).2.2.2.2,
    process_subcategory_res]
  obtain ⟨k, hmap, _, hlen, hst⟩ :=
    sub_go_bn rows cols cat sub (files.filter (fun f => is_image_file f.fname)).length
      (files.filter (fun f => is_image_file f.fname)) ⟨0, 0, [], pidx⟩
      ⟨1, 0, 0, [], log, events⟩ (le_refl _)
  simp only [List.map_nil, List.length_nil, List.nil_append, Nat.zero_add] at hmap hlen hst
  rw [hmap, hlen, hst]
  exact ⟨rfl, rfl⟩

/-- C1: evaluating the code at the failing input — a ledger holding one
row with fingerprint 1 for a previously stitched image, and a fresh
image (`a.png`) decoding to live fingerprint 1, grid 1×1.
`load_processed_images` keys the replayed index by the raw CSV string
`row[3]`, but the duplicate probe at line 1154 uses the live imagehash
object, which never hashes or compares equal to a string key.  So
although the ledgered fingerprint is present in the loaded index, the
fresh image is accepted and re-rendered as batch 1, the per-subcategory
duplicate counter stays 0, the duplicate-files list stays empty, the
processed counter rises to 1, and the run log gains a second row for the
same fingerprint — the opposite of what the claim (and the spec's
no-duplicate-re-render and idempotent-dedup properties) require.  The
same-run half of the claim does hold: a copy of the image under a second
name in the same run is keyed live-against-live and is caught, which
isolates the failure to the ledger-loaded branch. -/
theorem c1_ledger_fingerprint_never_matches :
    load_processed_images [⟨"c", "main", 7, 1, "old.png"⟩] = [(HKey.csv 1, 7)] ∧
    (process_subcategory 1 1 "c" "main" [imgTieA]
      (load_processed_images [⟨"c", "main", 7, 1, "old.png"⟩]) [] []).res.acc.saved.map
        (fun b => (b.bn, b.imgs.map Img.fname)) = [(1, ["a.png"])] ∧
    (process_subcategory 1 1 "c" "main" [imgTieA]
      (load_processed_images [⟨"c", "main", 7, 1, "old.png"⟩]) [] []).sum_dups = 0 ∧
    (process_subcategory 1 1 "c" "main" [imgTieA]
      (load_processed_images [⟨"c", "main", 7, 1, "old.png"⟩]) [] []).res.st.dup_files = [] ∧
    (process_subcategory 1 1 "c" "main" [imgTieA]
      (load_processed_images [⟨"c", "main", 7, 1, "old.png"⟩]) [] []).sum_processed = 1 ∧
    (process_subcategory 1 1 "c" "main" [imgTieA]
      (load_processed_images [⟨"c", "main", 7, 1, "old.png"⟩]) [] []).res.acc.log.map
        (fun e => (e.hash, e.fname)) = [(1, "a.png")] ∧
    (process_subcategory 1 1 "c" "main"
      [imgTieA, { imgTieA with fname := "copy.png" }] [] [] []).res.st.dup_files =
      ["copy.png"] := by
  refine ⟨?_, ?_, ?_, ?_, ?_, ?_, ?_⟩ <;> decide

/-- C8: with a positive grid capacity, a file whose decode/resize/
feature extraction fails is absorbed per-image: every rendered image is
one whose extraction succeeded, so the failed file joins no batch; every
listed file — the failed one included — is counted by `checked`; the
duplicate list names only files whose extraction succeeded, with the
duplicate counter in lockstep; and the processed counter counts only
rendered images. -/
theorem c8_extraction_failure_absorbed (rows cols : Nat) (cat sub : String)
    (files : List Img) (pidx : List (HKey × Nat)) (log : List Entry) (events : List Ev)
    (f : Img) (hcap : 0 < rows * cols)
    (hf : f ∈ (process_subcategory rows cols cat sub files pidx log events).listed)
    (hok : f.ok = false) :
    (∀ b ∈ (process_subcategory rows cols cat sub files pidx log events).res.acc.saved,
      ∀ g ∈ b.imgs, g.ok = true) ∧
    (∀ b ∈ (process_subcategory rows cols cat sub files pidx log events).res.acc.saved,
      f ∉ b.imgs) ∧
    (process_subcategory rows cols cat sub files pidx log events).sum_checked =
      (process_subcategory rows cols cat sub files pidx log events).listed.length ∧
    0 < (process_subcategory rows cols cat sub files pidx log events).listed.length ∧
    (∀ n ∈ (process_subcategory rows cols cat sub files pidx log events).res.st.dup_files,
      ∃ g, g ∈ (process_subcategory rows cols cat sub files pidx log events).listed ∧
        g.ok = true ∧ g.fname = n) ∧
    (process_subcategory rows cols cat sub files pidx log events).sum_dups =
      (process_subcategory rows cols cat sub files pidx log events).res.st.dup_files.length ∧
    (process_subcategory rows cols cat sub files pidx log events).sum_processed =
      (((process_subcategory rows cols cat sub files pidx log events).res.acc.saved).map
        (fun b => b.imgs.length)).sum := by
  have hallok : ∀ b ∈ (process_subcategory rows cols cat sub files pidx log events).res.acc.saved,
      ∀ g ∈ b.imgs, g.ok = true := by
    rw [process_subcategory_res]
    intro b hb g hg
    rcases sub_go_saved_mem rows cols cat sub _ _ _ _ (le_refl _) b hb with hin | hall
    · exact absurd hin (List.not_mem_nil b)
    · exact (hall g hg).2.1
  refine ⟨hallok, ?_, ?_, ?_, ?_, ?_, ?_⟩
  · intro b hb hfmem
    have := hallok b hb f hfmem
    rw [hok] at this
    exact absurd this (by simp)
  · rw [(process_subcategory_sums rows cols cat sub files pidx log events).2.1,
      process_subcategory_listed, process_subcategory_res]
    have hch := sub_go_checked rows cols cat sub
      (files.filter (fun f => is_image_file f.fname)).length
      (files.filter (fun f => is_image_file f.fname)) ⟨0, 0, [], pidx⟩
      ⟨1, 0, 0, [], log, events⟩ (le_refl _)
    have hdr := sub_go_drain rows cols cat sub hcap
      (files.filter (fun f => is_image_file f.fname)).length
      (files.filter (fun f => is_image_file f.fname)) ⟨0, 0, [], pidx⟩
      ⟨1, 0, 0, [], log, events⟩ (le_refl _)
    rw [hdr] at hch
    simpa using hch
  · rw [process_subcategory_listed] at hf ⊢
    exact List.length_pos.mpr (List.ne_nil_of_mem hf)
  · rw [process_subcategory_listed, process_subcategory_res]
    intro n hn
    rcases sub_go_dupf_mem rows cols cat sub _ _ _ _ (le_refl _) n hn with hin | hex
    · exact absurd hin (List.not_mem_nil n)
    · exact hex
  · rw [(process_subcategory_sums rows cols cat sub files pidx log events).2.2.1,
      process_subcategory_res]
    have := sub_go_dups rows cols cat sub
      (files.filter (fun f => is_image_file f.fname)).length
      (files.filter (fun f => is_image_file f.fname)) ⟨0, 0, [], pidx⟩
      ⟨1, 0, 0, [], log, events⟩ (le_refl _)
    simp only [List.length_nil] at this
    omega
  · rw [(process_subcategory_sums rows cols cat sub files pidx log events).2.2.2.1,
      process_subcategory_res]
    have hpr := sub_go_processed rows cols cat sub
      (files.filter (fun f => is_image_file f.fname)).length
      (files.filter (fun f => is_image_file f.fname)) ⟨0, 0, [], pidx⟩
      ⟨1, 0, 0, [], log, events⟩ 0 (le_refl _) (by simp)
    simpa using hpr

/-- C8 witness: a 1×1 grid over one failing file and one good file. -/
theorem c8_witness :
    (0 < 1 * 1 ∧
      (⟨"bad.png", false, 9, 0, 0, 0, 0, 0⟩ : Img) ∈
        (process_subcategory 1 1 "c" "main"
          [⟨"bad.png", false, 9, 0, 0, 0, 0, 0⟩, imgTieB] [] [] []).listed ∧
      (⟨"bad.png", false, 9, 0, 0, 0, 0, 0⟩ : Img).ok = false) ∧
    ((∀ b ∈ (process_subcategory 1 1 "c" "main"
        [⟨"bad.png", false, 9, 0, 0, 0, 0, 0⟩, imgTieB] [] [] []).res.acc.saved,
      ∀ g ∈ b.imgs, g.ok = true) ∧
    (∀ b ∈ (process_subcategory 1 1 "c" "main"
        [⟨"bad.png", false, 9, 0, 0, 0, 0, 0⟩, imgTieB] [] [] []).res.acc.saved,
      (⟨"bad.png", false, 9, 0, 0, 0, 0, 0⟩ : Img) ∉ b.imgs) ∧
    (process_subcategory 1 1 "c" "main"
        [⟨"bad.png", false, 9, 0, 0, 0, 0, 0⟩, imgTieB] [] [] []).sum_checked =
      (process_subcategory 1 1 "c" "main"
        [⟨"bad.png", false, 9, 0, 0, 0, 0, 0⟩, imgTieB] [] [] []).listed.length ∧
    0 < (process_subcategory 1 1 "c" "main"
        [⟨"bad.png", false, 9, 0, 0, 0, 0, 0⟩, imgTieB] [] [] []).listed.length ∧
    (∀ n ∈ (process_subcategory 1 1 "c" "main"
        [⟨"bad.png", false, 9, 0, 0, 0, 0, 0⟩, imgTieB] [] [] []).res.st.dup_files,
      ∃ g, g ∈ (process_subcategory 1 1 "c" "main"
          [⟨"bad.png", false, 9, 0, 0, 0, 0, 0⟩, imgTieB] [] [] []).listed ∧
        g.ok = true ∧ g.fname = n) ∧
    (process_subcategory 1 1 "c" "main"
        [⟨"bad.png", false, 9, 0, 0, 0, 0, 0⟩, imgTieB] [] [] []).sum_dups =
      (process_subcategory 1 1 "c" "main"
        [⟨"bad.png", false, 9, 0, 0, 0, 0, 0⟩, imgTieB] [] [] []).res.st.dup_files.length ∧
    (process_subcategory 1 1 "c" "main"
        [⟨"bad.png", false, 9, 0, 0, 0, 0, 0⟩, imgTieB] [] [] []).sum_processed =
      (((process_subcategory 1 1 "c" "main"
        [⟨"bad.png", false, 9, 0, 0, 0, 0, 0⟩, imgTieB] [] [] []).res.acc.saved).map
          (fun b => b.imgs.length)).sum) :=
  ⟨⟨by decide, by decide, by decide⟩,
    c8_extraction_failure_absorbed 1 1 "c" "main"
      [⟨"bad.png", false, 9, 0, 0, 0, 0, 0⟩, imgTieB] [] [] []
      ⟨"bad.png", false, 9, 0, 0, 0, 0, 0⟩ (by decide) (by decide) (by decide)⟩

/-- C9: evaluating the code at the failing input — a subcategory holding
one recognized, non-duplicate image — shows the subcategory summary's
`"Images in folder"` field reporting `len(available_images)` after the
loop drained the list: it reads 0 although one file was discovered (and
indeed processed). -/
theorem c9_images_in_folder_misreported :
    (process_subcategory 1 1 "c" "main" [imgTieA] [] [] []).sum_images_in_folder = 0 ∧
    (process_subcategory 1 1 "c" "main" [imgTieA] [] [] []).listed.length = 1 ∧
    (process_subcategory 1 1 "c" "main" [imgTieA] [] [] []).sum_processed = 1 := by
  refine ⟨?_, ?_, ?_⟩ <;> decide

/-! ### Category- and run-level plumbing -/

/-- The category record after folding in one processed subcategory. -/
def cat_fold (cr : CatRes) (n : Nat) (sr : SubRun) : CatRes :=
  { cr with
      images_in_folder := cr.images_in_folder + n,
      checked := cr.checked + sr.sum_checked,
      dups := cr.dups + sr.sum_dups,
      processed := cr.processed + sr.sum_processed,
      stitched := cr.stitched + sr.sum_stitched,
      dup_files := cr.dup_files ++ sr.res.st.dup_files,
      subRuns := cr.subRuns ++ [sr] }

theorem cat_loop_cons (rows cols : Nat) (c : CatDir) (name : String) (rest : List String)
    (cr : CatRes) (pidx : List (HKey × Nat)) (log : List Entry) (events : List Ev) :
    cat_loop rows cols c (name :: rest) cr pidx log events =
      if ((dir_files c name).filter (fun f => is_image_file f.fname)).isEmpty then
        cat_loop rows cols c rest cr pidx log events
      else
        cat_loop rows cols c rest
          (cat_fold cr ((dir_files c name).filter (fun f => is_image_file f.fname)).length
            (process_subcategory rows cols c.name name (dir_files c name) pidx log events))
          (process_subcategory rows cols c.name name (dir_files c name) pidx log events).res.st.pidx
          (process_subcategory rows cols c.name name (dir_files c name) pidx log events).res.acc.log
          (process_subcategory rows cols c.name name (dir_files c name) pidx log events).res.acc.events
    := rfl

theorem process_category_def (rows cols : Nat) (c : CatDir)
    (pidx : List (HKey × Nat)) (log : List Entry) (events : List Ev) :
    process_category rows cols c pidx log events =
      cat_loop rows cols c (subcategory_names c)
        { name := c.name, images_in_folder := 0, checked := 0, dups := 0,
          processed := 0, stitched := 0, dup_files := [], subRuns := [] }
        pidx log events := rfl

/-- An association-list hit comes from a member pair. -/
theorem lookup_mem_pairs {β : Type} {k : String} {v : β} :
    ∀ (l : List (String × β)), l.lookup k = some v → ∃ p, p ∈ l ∧ p.1 = k ∧ p.2 = v := by
  intro l
  induction l with
  | nil => intro h; simp [List.lookup] at h
  | cons a l ih =>
    intro h
    obtain ⟨k1, v1⟩ := a
    rw [List.lookup_cons] at h
    cases hk : k == k1 with
    | true =>
      rw [hk] at h
      have h2 : some v1 = some v := h
      exact ⟨(k1, v1), List.mem_cons_self _ l, (eq_of_beq hk).symm,
        Option.some.inj h2⟩
    | false =>
      rw [hk] at h
      have h2 : l.lookup k = some v := h
      obtain ⟨p, hp, hp1, hp2⟩ := ih h2
      exact ⟨p, List.mem_cons_of_mem _ hp, hp1, hp2⟩

/-- The images of every batch a subcategory run renders come from its
own listing. -/
theorem process_subcategory_saved_in_listed (rows cols : Nat) (cat sub : String)
    (files : List Img) (pidx : List (HKey × Nat)) (log : List Entry) (events : List Ev) :
    ∀ b ∈ (process_subcategory rows cols cat sub files pidx log events).res.acc.saved,
      ∀ g ∈ b.imgs,
        g ∈ (process_subcategory rows cols cat sub files pidx log events).listed := by
  rw [process_subcategory_res, process_subcategory_listed]
  intro b hb g hg
  rcases sub_go_saved_mem rows cols cat sub _ _ _ _ (le_refl _) b hb with hin | hall
  · exact absurd hin (List.not_mem_nil b)
  · exact (hall g hg).1

/-- Every subcategory run folded into a category result lists exactly
the recognized files of its directory (category root for `'main'`), and
its batches draw only from that listing. -/
theorem cat_loop_subRuns (rows cols : Nat) (c : CatDir) :
    ∀ (names : List String) (cr : CatRes) (pidx : List (HKey × Nat))
      (log : List Entry) (events : List Ev),
      ∀ r ∈ (cat_loop rows cols c names cr pidx log events).1.subRuns,
        r ∈ cr.subRuns ∨
        (r.sub ∈ names ∧
          r.listed = (dir_files c r.sub).filter (fun f => is_image_file f.fname) ∧
          ∀ b ∈ r.res.acc.saved, ∀ g ∈ b.imgs, g ∈ r.listed) := by
  intro names
  induction names with
  | nil => intro cr pidx log events r hr; exact Or.inl hr
  | cons name rest ih =>
    intro cr pidx log events r hr
    rw [cat_loop_cons] at hr
    by_cases hemp : ((dir_files c name).filter (fun f => is_image_file f.fname)).isEmpty
    · rw [if_pos hemp] at hr
      rcases ih cr pidx log events r hr with h | ⟨h1, h2, h3⟩
      · exact Or.inl h
      · exact Or.inr ⟨List.mem_cons_of_mem name h1, h2, h3⟩
    · rw [if_neg hemp] at hr
      rcases ih _ _ _ _ r hr with h | ⟨h1, h2, h3⟩
      · simp only [cat_fold, List.mem_append, List.mem_singleton] at h
        rcases h with h | h
        · exact Or.inl h
        · subst h
          refine Or.inr ⟨List.mem_cons_self name rest, rfl, ?_⟩
          exact process_subcategory_saved_in_listed rows cols c.name name
            (dir_files c name) pidx log events
      · exact Or.inr ⟨List.mem_cons_of_mem name h1, h2, h3⟩

/-- C10: when the category directory holds a real subdirectory literally
named `main`, that name is the only `main` the loop iterates, the run
for `main` lists the recognized files of the category root — not those
inside the `main` subdirectory — every rendered image of any
subcategory comes from that subcategory's listing, and the files inside
the `main` subdirectory (when they coincide with no other directory's
files) are never listed and never placed into any batch. -/
theorem c10_main_reads_category_root (rows cols : Nat) (c : CatDir)
    (pidx : List (HKey × Nat)) (log : List Entry) (events : List Ev)
    (ms : List Img) (hm : c.subdirs.lookup "main" = some ms)
    (hdisj : ∀ g ∈ ms, g ∉ c.rootFiles ∧ ∀ p ∈ c.subdirs, p.1 ≠ "main" → g ∉ p.2) :
    subcategory_names c = c.subdirs.map Prod.fst ∧
    (∀ r ∈ (process_category rows cols c pidx log events).1.subRuns, r.sub = "main" →
      r.listed = c.rootFiles.filter (fun f => is_image_file f.fname)) ∧
    (∀ r ∈ (process_category rows cols c pidx log events).1.subRuns,
      ∀ b ∈ r.res.acc.saved, ∀ g ∈ b.imgs, g ∈ r.listed) ∧
    (∀ g ∈ ms, ∀ r ∈ (process_category rows cols c pidx log events).1.subRuns,
      g ∉ r.listed ∧ ∀ b ∈ r.res.acc.saved, g ∉ b.imgs) := by
  have hmain : "main" ∈ c.subdirs.map Prod.fst := by
    obtain ⟨p, hp, hp1, _⟩ := lookup_mem_pairs c.subdirs hm
    exact List.mem_map.mpr ⟨p, hp, hp1⟩
  have hnames : subcategory_names c = c.subdirs.map Prod.fst := by
    unfold subcategory_names
    rw [if_pos (by simpa using hmain)]
  have hruns := cat_loop_subRuns rows cols c (subcategory_names c)
    { name := c.name, images_in_folder := 0, checked := 0, dups := 0,
      processed := 0, stitched := 0, dup_files := [], subRuns := [] }
    pidx log events
  rw [← process_category_def] at hruns
  have hlisted : ∀ r ∈ (process_category rows cols c pidx log events).1.subRuns,
      r.listed = (dir_files c r.sub).filter (fun f => is_image_file f.fname) := by
    intro r hr
    rcases hruns r hr with h | ⟨_, h2, _⟩
    · exact absurd h (List.not_mem_nil r)
    · exact h2
  have hprov : ∀ r ∈ (process_category rows cols c pidx log events).1.subRuns,
      ∀ b ∈ r.res.acc.saved, ∀ g ∈ b.imgs, g ∈ r.listed := by
    intro r hr
    rcases hruns r hr with h | ⟨_, _, h3⟩
    · exact absurd h (List.not_mem_nil r)
    · exact h3
  have hnotdir : ∀ g ∈ ms, ∀ s : String, g ∉ dir_files c s := by
    intro g hg s hmem
    unfold dir_files at hmem
    by_cases hs : s = "main"
    · rw [if_pos hs] at hmem
      exact (hdisj g hg).1 hmem
    · rw [if_neg hs] at hmem
      cases hcase : c.subdirs.lookup s with
      | none => rw [hcase] at hmem; simp at hmem
      | some fs =>
        rw [hcase] at hmem
        simp only [Option.getD_some] at hmem
        obtain ⟨p, hp, hp1, hp2⟩ := lookup_mem_pairs c.subdirs hcase
        exact (hdisj g hg).2 p hp (hp1 ▸ hs) (hp2 ▸ hmem)
  refine ⟨hnames, ?_, hprov, ?_⟩
  · intro r hr hsubm
    rw [hlisted r hr, hsubm]
    unfold dir_files
    rw [if_pos rfl]
  · intro g hg r hr
    have hgl : g ∉ r.listed := by
      rw [hlisted r hr]
      intro hmem
      exact hnotdir g hg r.sub (List.mem_of_mem_filter hmem)
    exact ⟨hgl, fun b hb hbmem => hgl (hprov r hr b hb g hbmem)⟩

/-- Concrete category directory with a real `main` subdirectory. -/
def imgInner : Img := ⟨"inner.png", true, 50, 0, 0, 0, 0, 0⟩

def imgRoot : Img := ⟨"root.png", true, 60, 0, 0, 0, 0, 0⟩

def catWithMain : CatDir :=
  { name := "c",
    subdirs := [("main", [imgInner])],
    rootFiles := [imgRoot] }

/-- C10 witness: a category with a real `main` subdirectory holding one
file; processing reads the root file and never the inner one. -/
theorem c10_witness :
    ((catWithMain.subdirs.lookup "main" = some [imgInner]) ∧
      (∀ g ∈ ([imgInner] : List Img),
        g ∉ catWithMain.rootFiles ∧
        ∀ p ∈ catWithMain.subdirs, p.1 ≠ "main" → g ∉ p.2)) ∧
    (subcategory_names catWithMain = catWithMain.subdirs.map Prod.fst ∧
    (∀ r ∈ (process_category 1 1 catWithMain [] [] []).1.subRuns, r.sub = "main" →
      r.listed = catWithMain.rootFiles.filter (fun f => is_image_file f.fname)) ∧
    (∀ r ∈ (process_category 1 1 catWithMain [] [] []).1.subRuns,
      ∀ b ∈ r.res.acc.saved, ∀ g ∈ b.imgs, g ∈ r.listed) ∧
    (∀ g ∈ ([imgInner] : List Img),
      ∀ r ∈ (process_category 1 1 catWithMain [] [] []).1.subRuns,
        g ∉ r.listed ∧ ∀ b ∈ r.res.acc.saved, g ∉ b.imgs)) :=
  ⟨⟨by decide, by decide⟩,
    c10_main_reads_category_root 1 1 catWithMain [] [] [] [imgInner]
      (by decide) (by decide)⟩

/-! ### The run's side-effect trace -/

/-- The save events a subcategory run contributes, in save order. -/
def sub_saves (cat : String) (r : SubRun) : List Ev :=
  r.res.acc.saved.map (fun b => Ev.save cat r.sub b.bn)

/-- The ledger rows a subcategory run's completed batches contribute. -/
def sub_entries (r : SubRun) : List Entry :=
  (r.res.acc.saved.map SavedBatch.entries).flatten

/-- The save events of a category's subcategory runs, in order. -/
def cat_saves (cat : String) (rs : List SubRun) : List Ev :=
  (rs.map (sub_saves cat)).flatten

/-- The ledger rows of a category's completed batches, in order. -/
def cat_entries (rs : List SubRun) : List Entry :=
  (rs.map sub_entries).flatten

/-- The save events of a whole run, in order. -/
def run_saves (crs : List CatRes) : List Ev :=
  (crs.map (fun cr => cat_saves cr.name cr.subRuns)).flatten

/-- The ledger rows of a whole run's completed batches, in order. -/
def run_entries (crs : List CatRes) : List Entry :=
  (crs.map (fun cr => cat_entries cr.subRuns)).flatten

/-- A subcategory run appends exactly one save event per rendered batch
to the trace, and exactly its batches' rows to the run log. -/
theorem process_subcategory_trace (rows cols : Nat) (cat sub : String)
    (files : List Img) (pidx : List (HKey × Nat)) (log : List Entry) (events : List Ev) :
    (process_subcategory rows cols cat sub files pidx log events).res.acc.events =
      events ++ sub_saves cat (process_subcategory rows cols cat sub files pidx log events) ∧
    (process_subcategory rows cols cat sub files pidx log events).res.acc.log =
      log ++ sub_entries (process_subcategory rows cols cat sub files pidx log events) := by
  constructor
  · have := sub_go_events rows cols cat sub
      (files.filter (fun f => is_image_file f.fname)).length
      (files.filter (fun f => is_image_file f.fname)) ⟨0, 0, [], pidx⟩
      ⟨1, 0, 0, [], log, events⟩ events (le_refl _) (by simp)
    rw [process_subcategory_res]
    exact this
  · have := sub_go_log rows cols cat sub
      (files.filter (fun f => is_image_file f.fname)).length
      (files.filter (fun f => is_image_file f.fname)) ⟨0, 0, [], pidx⟩
      ⟨1, 0, 0, [], log, events⟩ log (le_refl _) (by simp)
    rw [process_subcategory_res]
    exact this

/-- Across a category's subcategory loop, the trace gains exactly the
save events of the folded-in runs and the log exactly their rows. -/
theorem cat_loop_trace (rows cols : Nat) (c : CatDir) :
    ∀ (names : List String) (cr : CatRes) (pidx : List (HKey × Nat))
      (log : List Entry) (events : List Ev) (E0 : List Ev) (L0 : List Entry),
      events = E0 ++ cat_saves c.name cr.subRuns →
      log = L0 ++ cat_entries cr.subRuns →
      (cat_loop rows cols c names cr pidx log events).2.2.2 =
        E0 ++ cat_saves c.name (cat_loop rows cols c names cr pidx log events).1.subRuns ∧
      (cat_loop rows cols c names cr pidx log events).2.2.1 =
        L0 ++ cat_entries (cat_loop rows cols c names cr pidx log events).1.subRuns := by
  intro names
  induction names with
  | nil => intro cr pidx log events E0 L0 hev hlog; exact ⟨hev, hlog⟩
  | cons name rest ih =>
    intro cr pidx log events E0 L0 hev hlog
    rw [cat_loop_cons]
    by_cases hemp : ((dir_files c name).filter (fun f => is_image_file f.fname)).isEmpty
    · rw [if_pos hemp]
      exact ih cr pidx log events E0 L0 hev hlog
    · rw [if_neg hemp]
      refine ih _ _ _ _ E0 L0 ?_ ?_
      · rw [(process_subcategory_trace rows cols c.name name
          (dir_files c name) pidx log events).1, hev]
        simp only [cat_fold, cat_saves, List.map_append, List.flatten_append,
          List.map_cons, List.map_nil, List.flatten_cons, List.flatten_nil,
          List.append_nil, List.append_assoc]
      · rw [(process_subcategory_trace rows cols c.name name
          (dir_files c name) pidx log events).2, hlog]
        simp only [cat_fold, cat_entries, List.map_append, List.flatten_append,
          List.map_cons, List.map_nil, List.flatten_cons, List.flatten_nil,
          List.append_nil, List.append_assoc]

/-- The category loop never changes the category's name. -/
theorem cat_loop_name (rows cols : Nat) (c : CatDir) :
    ∀ (names : List String) (cr : CatRes) (pidx : List (HKey × Nat))
      (log : List Entry) (events : List Ev),
      (cat_loop rows cols c names cr pidx log events).1.name = cr.name := by
  intro names
  induction names with
  | nil => intro cr pidx log events; rfl
  | cons name rest ih =>
    intro cr pidx log events
    rw [cat_loop_cons]
    by_cases hemp : ((dir_files c name).filter (fun f => is_image_file f.fname)).isEmpty
    · rw [if_pos hemp]; exact ih cr pidx log events
    · rw [if_neg hemp]
      rw [ih _ _ _ _]
      rfl

theorem run_saves_concat (crs : List CatRes) (cr : CatRes) :
    run_saves (crs ++ [cr]) = run_saves crs ++ cat_saves cr.name cr.subRuns := by
  simp [run_saves]

theorem run_entries_concat (crs : List CatRes) (cr : CatRes) :
    run_entries (crs ++ [cr]) = run_entries crs ++ cat_entries cr.subRuns := by
  simp [run_entries]

theorem run_loop_cons (rows cols : Nat) (c : CatDir) (rest : List CatDir)
    (crs : List CatRes) (pidx : List (HKey × Nat)) (log : List Entry) (events : List Ev) :
    run_loop rows cols (c :: rest) crs pidx log events =
      run_loop rows cols rest
        (crs ++ [(process_category rows cols c pidx log events).1])
        (process_category rows cols c pidx log events).2.1
        (process_category rows cols c pidx log events).2.2.1
        (process_category rows cols c pidx log events).2.2.2 := rfl

/-- Across the whole category loop of a run, the trace gains exactly the
save events of the processed categories and the log exactly their
completed batches' rows. -/
theorem run_loop_trace (rows cols : Nat) :
    ∀ (cats : List CatDir) (crs : List CatRes) (pidx : List (HKey × Nat))
      (log : List Entry) (events : List Ev) (E0 : List Ev) (L0 : List Entry),
      events = E0 ++ run_saves crs →
      log = L0 ++ run_entries crs →
      (run_loop rows cols cats crs pidx log events).2.2.2 =
        E0 ++ run_saves (run_loop rows cols cats crs pidx log events).1 ∧
      (run_loop rows cols cats crs pidx log events).2.2.1 =
        L0 ++ run_entries (run_loop rows cols cats crs pidx log events).1 := by
  intro cats
  induction cats with
  | nil => intro crs pidx log events E0 L0 hev hlog; exact ⟨hev, hlog⟩
  | cons c rest ih =>
    intro crs pidx log events E0 L0 hev hlog
    subst hev
    subst hlog
    rw [run_loop_cons]
    have hcat := cat_loop_trace rows cols c (subcategory_names c)
      { name := c.name, images_in_folder := 0, checked := 0, dups := 0,
        processed := 0, stitched := 0, dup_files := [], subRuns := [] }
      pidx (L0 ++ run_entries crs) (E0 ++ run_saves crs)
      (E0 ++ run_saves crs) (L0 ++ run_entries crs)
      (by simp [cat_saves]) (by simp [cat_entries])
    rw [← process_category_def] at hcat
    have hname : (process_category rows cols c pidx (L0 ++ run_entries crs)
        (E0 ++ run_saves crs)).1.name = c.name := by
      have := cat_loop_name rows cols c (subcategory_names c)
        { name := c.name, images_in_folder := 0, checked := 0, dups := 0,
          processed := 0, stitched := 0, dup_files := [], subRuns := [] }
        pidx (L0 ++ run_entries crs) (E0 ++ run_saves crs)
      rw [← process_category_def] at this
      exact this
    refine ih _ _ _ _ E0 L0 ?_ ?_
    · rw [hcat.1, run_saves_concat, hname]
      simp only [List.append_assoc]
    · rw [hcat.2, run_entries_concat]
      simp only [List.append_assoc]

theorem stitch_images_def (rows cols : Nat) (cats : List CatDir) (ledger : List Entry) :
    stitch_images rows cols cats ledger =
      ⟨(run_loop rows cols cats [] (load_processed_images ledger) [] []).1,
       (run_loop rows cols cats [] (load_processed_images ledger) [] []).2.1,
       (run_loop rows cols cats [] (load_processed_images ledger) [] []).2.2.1,
       (run_loop rows cols cats [] (load_processed_images ledger) [] []).2.2.2 ++
         [Ev.appendLedger
           (run_loop rows cols cats [] (load_processed_images ledger) [] []).2.2.1]⟩ := rfl

/-- Helper for the trace claims: is an event a durable ledger append? -/
def is_append_ev : Ev → Bool
  | Ev.appendLedger _ => true
  | Ev.save _ _ _ => false

/-- C6 counterexample: a run completing two batches performs exactly one
durable ledger append — at the end of the run, not once per completed
batch immediately after each compositing (the event after the first
save is the second save, not an append). -/
theorem c6_counterexample :
    ((stitch_images 1 1 [{ name := "c", subdirs := [], rootFiles := [imgTieA, imgTieB] }]
        []).events.filter is_append_ev).length = 1 ∧
    (stitch_images 1 1 [{ name := "c", subdirs := [], rootFiles := [imgTieA, imgTieB] }]
        []).events =
      [Ev.save "c" "main" 1, Ev.save "c" "main" 2,
       Ev.appendLedger [⟨"c", "main", 1, 1, "a.png"⟩, ⟨"c", "main", 2, 2, "b.png"⟩]] := by
  constructor
  · decide
  · decide

/-- C6 (amended): the run's side-effect trace is all the grid-save
events of the completed batches, in order, followed by exactly one
durable ledger append at the end of the run; the appended rows are
exactly the completed batches' rows in completion order, so rows for
images whose batch was never completed are never written to the backing
store. -/
theorem c6_ledger_appended_once_per_run (rows cols : Nat) (cats : List CatDir)
    (ledger : List Entry) :
    (stitch_images rows cols cats ledger).events =
      run_saves (stitch_images rows cols cats ledger).cats ++
        [Ev.appendLedger (stitch_images rows cols cats ledger).log] ∧
    (stitch_images rows cols cats ledger).log =
      run_entries (stitch_images rows cols cats ledger).cats := by
  have htr := run_loop_trace rows cols cats [] (load_processed_images ledger) [] [] [] []
    (by simp [run_saves]) (by simp [run_entries])
  have hf1 : (stitch_images rows cols cats ledger).events =
      (run_loop rows cols cats [] (load_processed_images ledger) [] []).2.2.2 ++
        [Ev.appendLedger
          (run_loop rows cols cats [] (load_processed_images ledger) [] []).2.2.1] := rfl
  have hf2 : (stitch_images rows cols cats ledger).cats =
      (run_loop rows cols cats [] (load_processed_images ledger) [] []).1 := rfl
  have hf3 : (stitch_images rows cols cats ledger).log =
      (run_loop rows cols cats [] (load_processed_images ledger) [] []).2.2.1 := rfl
  rw [hf1, hf2, hf3, htr.1, htr.2]
  simp

end LifeDrawing
